import Mathlib

/-!
Verification development for the chanxuehong/session repository
(src/session.go, version 1.2.3): an in-process key/value cache with
sliding TTL expiration, LRU ordering, a free-list slot pool, and a
periodic reclaimer.

The state of a Storage is embedded shallowly:

* Go heap elements (list.Element) live in a growable arena `heap`;
  a Go pointer to an element is its arena index (Nat).
* The two intrusive lists (lruList, freeList) are lists of arena
  indices, front first.  The intrusive list package
  (github.com/chanxuehong/session/list) is not part of src/; its
  operations are modelled from spec section 4.1: pushFront is cons,
  removeFront pops the head, back is the last entry, remove unlinks a
  designated node, moveToFront is remove followed by cons.
* The Go map cache is an association list with at most one entry per
  key; map assignment and delete are modelled accordingly.
* time.Now().Unix() is passed to each operation as an explicit
  `timenow : Int` argument.
* the Go signed int has some width w; the only place where wraparound
  matters is the overflow guard in Storage.add, which is modelled with
  an explicit width parameter.
-/

/-- A stored value: a Go interface value, possibly nil (none). -/
abbrev Val := Option Nat

/-- list.Element: key, value and absolute expiration time (Unix seconds). -/
structure Elem where
  key : String
  value : Val
  expiration : Int
  deriving DecidableEq, Repr

/-- The zero value of list.Element: empty key, nil value, expiration 0. -/
def emptyElem : Elem := ⟨"", none, 0⟩

/-- The state of a session.Storage.  heap is the arena of every element
ever allocated; lruList and freeList hold arena indices, front first;
cache is the key index.  maxAge and capacity are the configuration
fields.  (The mutex and the gc-interval channel have no state content
relevant to the sequential semantics.) -/
structure Storage where
  heap : List Elem
  lruList : List Nat
  freeList : List Nat
  cache : List (String × Nat)
  maxAge : Int
  capacity : Nat
  deriving DecidableEq, Repr

/-- Go map read: first (and under the key-uniqueness invariant, only)
binding of the key. -/
def mlookup : List (String × Nat) → String → Option Nat
  | [], _ => none
  | p :: m, k => if p.1 = k then some p.2 else mlookup m k

/-- Go map delete: remove every binding of the key (there is at most
one under the invariant). -/
def mdelete : List (String × Nat) → String → List (String × Nat)
  | [], _ => []
  | p :: m, k => if p.1 = k then mdelete m k else p :: mdelete m k

/-- Go map assignment m[k] = i. -/
def minsert (m : List (String × Nat)) (k : String) (i : Nat) : List (String × Nat) :=
  (k, i) :: mdelete m k

/-- Arena read through an element pointer (total; out-of-range reads,
which never happen in reachable states, give the zero element). -/
def hget : List Elem → Nat → Elem
  | [], _ => emptyElem
  | e :: _, 0 => e
  | _ :: h, n + 1 => hget h n

/-- Arena write through an element pointer. -/
def hset : List Elem → Nat → Elem → List Elem
  | [], _, _ => []
  | _ :: h, 0, e => e :: h
  | x :: h, n + 1, e => x :: hset h n e

/-- Dereference an element pointer of a Storage. -/
def Storage.elemAt (s : Storage) (i : Nat) : Elem := hget s.heap i

/-- list.List.Remove of a designated node (modelled from spec section
4.1; under the no-duplicates invariant the erased index occurs once). -/
def lerase : List Nat → Nat → List Nat
  | [], _ => []
  | x :: l, i => if x = i then l else x :: lerase l i

/-- list.List.MoveToFront (modelled from spec section 4.1). -/
def moveToFront (l : List Nat) (i : Nat) : List Nat := i :: lerase l i

/-- list.List.Back (modelled from spec section 4.1): the last node,
none when the list is empty. -/
def lback (l : List Nat) : Option Nat := l.getLast?

/-- The signed value of a w-bit two's-complement bit pattern. -/
def signedOfBits (w : Nat) (u : Nat) : Int :=
  if u < 2 ^ (w - 1) then (u : Int) else (u : Int) - 2 ^ w

/-- The overflow guard of Storage.add: the Go test
lruList.Len()<<1 == -2, where Len() is a w-bit signed int holding n and
the shift wraps modulo 2^w. -/
def shlOverflowGuard (w : Nat) (n : Nat) : Prop :=
  signedOfBits w ((2 * n) % 2 ^ w) = -2

instance (w n : Nat) : Decidable (shlOverflowGuard w n) := by
  unfold shlOverflowGuard; infer_instance

/-- Result errors: session.ErrNotFound and session.ErrNotStored. -/
inductive Err where
  | notFound
  | notStored
  deriving DecidableEq, Repr

/-- The part of Storage.add after the failed back-reuse test: pop the
front of freeList when non-empty; then the int-overflow guard; last,
allocate a fresh element (its arena index is the current arena size). -/
def Storage.addNoReuse (w : Nat) (s : Storage) (key : String) (value : Val) (timenow : Int) :
    Storage × Option Err :=
  match s.freeList with
  | eid :: rest =>
    ({ s with
        freeList := rest,
        heap := hset s.heap eid ⟨key, value, timenow + s.maxAge⟩,
        lruList := eid :: s.lruList,
        cache := minsert s.cache key eid }, none)
  | [] =>
    if shlOverflowGuard w s.lruList.length then
      (s, some Err.notStored)
    else
      ({ s with
          heap := s.heap ++ [⟨key, value, timenow + s.maxAge⟩],
          lruList := s.heap.length :: s.lruList,
          cache := minsert s.cache key s.heap.length }, none)

/-- Storage.add: add a key absent from the cache.  First branch: reuse
the back of lruList when it exists and is expired; otherwise fall
through to Storage.addNoReuse. -/
def Storage.add (w : Nat) (s : Storage) (key : String) (value : Val) (timenow : Int) :
    Storage × Option Err :=
  match lback s.lruList with
  | some eid =>
    if timenow > (s.elemAt eid).expiration then
      ({ s with
          cache := minsert (mdelete s.cache (s.elemAt eid).key) key eid,
          heap := hset s.heap eid ⟨key, value, timenow + s.maxAge⟩,
          lruList := moveToFront s.lruList eid }, none)
    else s.addNoReuse w key value timenow
  | none => s.addNoReuse w key value timenow

/-- The two-sided jitter-guard condition shared by Storage.remove and
the trim step of Storage.gc: totalLen > capacity and
lruList.Len() < capacity - capacity/5, with both lengths read from the
given state. -/
def discardCond (s : Storage) : Prop :=
  s.lruList.length + s.freeList.length > s.capacity ∧
  s.lruList.length < s.capacity - s.capacity / 5

instance (s : Storage) : Decidable (discardCond s) := by
  unfold discardCond; infer_instance

/-- Storage.remove: unlink a live node; delete its cache entry; clear
its key and value (the expiration field is left as is); with
totalLen = lruList.Len() + freeList.Len() read before the unlink,
physically discard the node when totalLen > capacity and
lruList.Len() < capacity - capacity/5 (also read before the unlink),
otherwise push it onto the front of freeList. -/
def Storage.remove (s : Storage) (eid : Nat) : Storage :=
  let e := s.elemAt eid
  let cache' := mdelete s.cache e.key
  let heap' := hset s.heap eid { e with key := "", value := none }
  if discardCond s then
    { s with cache := cache', heap := heap', lruList := lerase s.lruList eid }
  else
    { s with cache := cache', heap := heap', lruList := lerase s.lruList eid,
             freeList := eid :: s.freeList }

/-- Storage.Add: on a cache hit, overwrite value and slide expiration
(moving the node to the front) only when the entry is expired,
otherwise fail with ErrNotStored; on a miss defer to Storage.add. -/
def Storage.Add (w : Nat) (s : Storage) (key : String) (value : Val) (timenow : Int) :
    Storage × Option Err :=
  match mlookup s.cache key with
  | some eid =>
    if timenow > (s.elemAt eid).expiration then
      ({ s with
          heap := hset s.heap eid
            { s.elemAt eid with value := value, expiration := timenow + s.maxAge },
          lruList := moveToFront s.lruList eid }, none)
    else (s, some Err.notStored)
  | none => s.add w key value timenow

/-- Storage.Set: on a cache hit, unconditionally overwrite value and
slide expiration, moving the node to the front; on a miss defer to
Storage.add. -/
def Storage.Set (w : Nat) (s : Storage) (key : String) (value : Val) (timenow : Int) :
    Storage × Option Err :=
  match mlookup s.cache key with
  | some eid =>
    ({ s with
        heap := hset s.heap eid
          { s.elemAt eid with value := value, expiration := timenow + s.maxAge },
        lruList := moveToFront s.lruList eid }, none)
  | none => s.add w key value timenow

/-- Storage.Get: miss gives (nil, ErrNotFound); an expired hit is
removed through Storage.remove and gives (nil, ErrNotFound); a live hit
returns the value, slides the expiration and moves the node to the
front. -/
def Storage.Get (s : Storage) (key : String) (timenow : Int) :
    Storage × Val × Option Err :=
  match mlookup s.cache key with
  | some eid =>
    if timenow > (s.elemAt eid).expiration then
      (s.remove eid, none, some Err.notFound)
    else
      ({ s with
          heap := hset s.heap eid
            { s.elemAt eid with expiration := timenow + s.maxAge },
          lruList := moveToFront s.lruList eid },
        (s.elemAt eid).value, none)
  | none => (s, none, some Err.notFound)

/-- Storage.Delete (version 1.2.3): a hit is removed through
Storage.remove; in both the hit and the miss case the returned error is
nil. -/
def Storage.Delete (s : Storage) (key : String) : Storage × Option Err :=
  match mlookup s.cache key with
  | some eid => (s.remove eid, none)
  | none => (s, none)

/-- The gc sweep loop.  The Go loop repeatedly reads lruList.Back() and,
while it is expired, deletes its cache entry, clears its key and value
and moves it to the front of freeList; so it consumes lruList from the
back, which is realized here by structural recursion on the reversed
lruList (the argument rev is the reversal of s.lruList, an equality
kept in step at every call). -/
def gcSweepRev (timenow : Int) (s : Storage) : List Nat → Storage
  | [] => { s with lruList := [] }
  | i :: rest =>
    if timenow > (s.elemAt i).expiration then
      gcSweepRev timenow
        { s with
            heap := hset s.heap i { s.elemAt i with key := "", value := none },
            cache := mdelete s.cache (s.elemAt i).key,
            freeList := i :: s.freeList,
            lruList := rest.reverse } rest
    else { s with lruList := (i :: rest).reverse }

/-- Storage.gc: the expiry sweep from the back, then the bulk capacity
trim: when totalLen > capacity and lruList.Len() < capacity -
capacity/5, pop totalLen - capacity nodes off the front of freeList
(the loop body is RemoveFront run shouldRemoveNum times, modelled by
List.drop). -/
def Storage.gc (s : Storage) (timenow : Int) : Storage :=
  let s1 := gcSweepRev timenow s s.lruList.reverse
  if discardCond s1 then
    { s1 with freeList :=
        s1.freeList.drop (s1.lruList.length + s1.freeList.length - s1.capacity) }
  else s1

/-- Storage.SetCapacity: install the new capacity only when positive. -/
def Storage.setCapacity (s : Storage) (c : Int) : Storage :=
  if 0 < c then { s with capacity := c.toNat } else s

/-- Storage.Len. -/
def Storage.LenOp (s : Storage) : Nat := s.lruList.length

/-- The freeList built by New: capacity successive PushFront of fresh
elements with arena indices 0, 1, ..., so the front holds the last
index pushed. -/
def freeInit : Nat → List Nat
  | 0 => []
  | n + 1 => n :: freeInit n

/-- session.New (state content): empty lruList and cache, freeList
holding capacity zero-valued elements. -/
def Storage.new (maxAge : Int) (capacity : Nat) : Storage :=
  { heap := List.replicate capacity emptyElem,
    lruList := [],
    freeList := freeInit capacity,
    cache := [],
    maxAge := maxAge,
    capacity := capacity }

/-- A public operation together with the clock value at which it runs. -/
inductive Op where
  | add (k : String) (v : Val)
  | set (k : String) (v : Val)
  | get (k : String)
  | delete (k : String)
  | gc
  | setCapacity (c : Int)
  deriving DecidableEq, Repr

/-- The state change of one public operation. -/
def applyOp (w : Nat) (s : Storage) (op : Op) (timenow : Int) : Storage :=
  match op with
  | .add k v => (s.Add w k v timenow).1
  | .set k v => (s.Set w k v timenow).1
  | .get k => (s.Get k timenow).1
  | .delete k => (s.Delete k).1
  | .gc => s.gc timenow
  | .setCapacity c => s.setCapacity c

/-- Run a trace of timed operations. -/
def run (w : Nat) (s : Storage) : List (Op × Int) → Storage
  | [] => s
  | (op, t) :: tr => run w (applyOp w s op t) tr

/-- The clock values of a trace are at least t0 and non-decreasing. -/
def Chrono : Int → List (Op × Int) → Prop
  | _, [] => True
  | t0, (_, t) :: tr => t0 ≤ t ∧ Chrono t tr

instance : ∀ (t0 : Int) (tr : List (Op × Int)), Decidable (Chrono t0 tr)
  | _, [] => .isTrue trivial
  | t0, (_, t) :: tr =>
    have : Decidable (Chrono t tr) := instDecidableChrono t tr
    inferInstanceAs (Decidable (t0 ≤ t ∧ Chrono t tr))

/-! ## Helper lemmas: lerase -/

theorem lerase_of_not_mem {l : List Nat} {i : Nat} (h : i ∉ l) : lerase l i = l := by
  induction l with
  | nil => rfl
  | cons x l ih =>
    simp only [List.mem_cons, not_or] at h
    have hne : ¬ x = i := fun he => h.1 he.symm
    simp only [lerase, if_neg hne, ih h.2]

theorem lerase_sublist (l : List Nat) (i : Nat) : List.Sublist (lerase l i) l := by
  induction l with
  | nil => exact List.Sublist.refl _
  | cons x l ih =>
    by_cases hx : x = i
    · simp only [lerase, if_pos hx]
      exact List.sublist_cons_self x l
    · simp only [lerase, if_neg hx]
      exact List.Sublist.cons₂ x ih

theorem mem_of_mem_lerase {l : List Nat} {i j : Nat} (h : j ∈ lerase l i) : j ∈ l :=
  (lerase_sublist l i).subset h

theorem length_lerase_of_mem {l : List Nat} {i : Nat} (h : i ∈ l) :
    (lerase l i).length + 1 = l.length := by
  induction l with
  | nil => cases h
  | cons x l ih =>
    by_cases hx : x = i
    · simp only [lerase, if_pos hx, List.length_cons]
    · rcases List.mem_cons.mp h with h1 | h2
      · exact absurd h1.symm hx
      · simp only [lerase, if_neg hx, List.length_cons, ih h2]

theorem mem_lerase_of_mem_of_ne {l : List Nat} {i j : Nat} (hj : j ∈ l) (hne : j ≠ i) :
    j ∈ lerase l i := by
  induction l with
  | nil => cases hj
  | cons x l ih =>
    by_cases hx : x = i
    · simp only [lerase, if_pos hx]
      rcases List.mem_cons.mp hj with h1 | h2
      · exact absurd (h1.trans hx) hne
      · exact h2
    · simp only [lerase, if_neg hx]
      rcases List.mem_cons.mp hj with h1 | h2
      · exact h1 ▸ List.mem_cons_self x _
      · exact List.mem_cons_of_mem x (ih h2)

theorem nodup_lerase {l : List Nat} (i : Nat) (h : l.Nodup) : (lerase l i).Nodup :=
  (lerase_sublist l i).nodup h

theorem not_mem_lerase_self {l : List Nat} {i : Nat} (h : l.Nodup) : i ∉ lerase l i := by
  induction l with
  | nil => simp [lerase]
  | cons x l ih =>
    rcases List.nodup_cons.mp h with ⟨hx, hl⟩
    by_cases hxi : x = i
    · simp only [lerase, if_pos hxi]
      exact fun hmem => hx (hxi ▸ hmem)
    · simp only [lerase, if_neg hxi, List.mem_cons, not_or]
      exact ⟨fun he => hxi he.symm, ih hl⟩

theorem mem_of_lback {l : List Nat} {i : Nat} (h : lback l = some i) : i ∈ l := by
  unfold lback at h
  induction l with
  | nil => cases h
  | cons x l ih =>
    cases l with
    | nil =>
      simp only [List.getLast?_singleton, Option.some.injEq] at h
      exact h ▸ List.mem_cons_self _ _
    | cons y l =>
      rw [List.getLast?_cons_cons] at h
      exact List.mem_cons_of_mem x (ih h)

/-! ## Helper lemmas: the cache map -/

/-- The key column of the cache. -/
def mkeys (m : List (String × Nat)) : List String := m.map Prod.fst

theorem mlookup_eq_none_iff {m : List (String × Nat)} {k : String} :
    mlookup m k = none ↔ ∀ p ∈ m, p.1 ≠ k := by
  induction m with
  | nil => simp [mlookup]
  | cons p m ih =>
    by_cases hp : p.1 = k
    · simp [mlookup, hp]
    · simp only [mlookup, if_neg hp, List.mem_cons, ih]
      constructor
      · rintro h q (rfl | hq)
        · exact hp
        · exact h q hq
      · exact fun h q hq => h q (Or.inr hq)

theorem mem_of_mlookup_eq_some {m : List (String × Nat)} {k : String} {i : Nat}
    (h : mlookup m k = some i) : (k, i) ∈ m := by
  induction m with
  | nil => cases h
  | cons p m ih =>
    by_cases hp : p.1 = k
    · simp only [mlookup, if_pos hp, Option.some.injEq] at h
      exact List.mem_cons.mpr (Or.inl (by rw [← hp, ← h]))
    · simp only [mlookup, if_neg hp] at h
      exact List.mem_cons_of_mem p (ih h)

theorem mlookup_mdelete_self (m : List (String × Nat)) (k : String) :
    mlookup (mdelete m k) k = none := by
  induction m with
  | nil => rfl
  | cons p m ih =>
    by_cases hp : p.1 = k
    · simpa [mdelete, hp] using ih
    · simpa [mdelete, mlookup, hp] using ih

theorem mlookup_mdelete_ne {m : List (String × Nat)} {k k' : String} (h : k' ≠ k) :
    mlookup (mdelete m k) k' = mlookup m k' := by
  induction m with
  | nil => rfl
  | cons p m ih =>
    by_cases hp : p.1 = k
    · have hp' : ¬ p.1 = k' := fun he => h (he ▸ hp : k' = k)
      rw [show mdelete (p :: m) k = mdelete m k by simp [mdelete, hp], ih,
        show mlookup (p :: m) k' = mlookup m k' by simp [mlookup, hp']]
    · rw [show mdelete (p :: m) k = p :: mdelete m k by simp [mdelete, hp]]
      by_cases hq : p.1 = k'
      · rw [show mlookup (p :: mdelete m k) k' = some p.2 by simp [mlookup, hq],
          show mlookup (p :: m) k' = some p.2 by simp [mlookup, hq]]
      · rw [show mlookup (p :: mdelete m k) k' = mlookup (mdelete m k) k' by
            simp [mlookup, hq], ih,
          show mlookup (p :: m) k' = mlookup m k' by simp [mlookup, hq]]

theorem mem_mdelete {m : List (String × Nat)} {k : String} {p : String × Nat} :
    p ∈ mdelete m k ↔ p ∈ m ∧ p.1 ≠ k := by
  induction m with
  | nil => simp [mdelete]
  | cons q m ih =>
    by_cases hq : q.1 = k
    · simp only [mdelete, if_pos hq, ih, List.mem_cons]
      constructor
      · exact fun ⟨h1, h2⟩ => ⟨Or.inr h1, h2⟩
      · rintro ⟨rfl | h1, h2⟩
        · exact absurd hq h2
        · exact ⟨h1, h2⟩
    · simp only [mdelete, if_neg hq, List.mem_cons, ih]
      constructor
      · rintro (rfl | ⟨h1, h2⟩)
        · exact ⟨Or.inl rfl, hq⟩
        · exact ⟨Or.inr h1, h2⟩
      · rintro ⟨rfl | h1, h2⟩
        · exact Or.inl rfl
        · exact Or.inr ⟨h1, h2⟩

theorem mdelete_sublist (m : List (String × Nat)) (k : String) :
    List.Sublist (mdelete m k) m := by
  induction m with
  | nil => exact List.Sublist.refl _
  | cons p m ih =>
    by_cases hp : p.1 = k
    · simp only [mdelete, if_pos hp]
      exact ih.trans (List.sublist_cons_self p m)
    · simp only [mdelete, if_neg hp]
      exact List.Sublist.cons₂ p ih

theorem mdelete_of_mlookup_none {m : List (String × Nat)} {k : String}
    (h : mlookup m k = none) : mdelete m k = m := by
  induction m with
  | nil => rfl
  | cons p m ih =>
    by_cases hp : p.1 = k
    · simp [mlookup, hp] at h
    · simp only [mlookup, if_neg hp] at h
      simp [mdelete, hp, ih h]

theorem mkeys_nodup_mdelete {m : List (String × Nat)} {k : String}
    (h : (mkeys m).Nodup) : (mkeys (mdelete m k)).Nodup :=
  ((mdelete_sublist m k).map Prod.fst).nodup h

theorem mlookup_eq_none_of_not_mem_mkeys {m : List (String × Nat)} {k : String}
    (h : k ∉ mkeys m) : mlookup m k = none := by
  rw [mlookup_eq_none_iff]
  intro p hp he
  exact h (he ▸ List.mem_map_of_mem Prod.fst hp)

theorem length_mdelete_of_some {m : List (String × Nat)} {k : String} {i : Nat}
    (hnd : (mkeys m).Nodup) (h : mlookup m k = some i) :
    (mdelete m k).length + 1 = m.length := by
  induction m with
  | nil => cases h
  | cons p m ih =>
    have hnd' : p.1 ∉ mkeys m ∧ (mkeys m).Nodup := by
      have := List.nodup_cons.mp (show (p.1 :: mkeys m).Nodup from hnd)
      exact this
    by_cases hp : p.1 = k
    · have hnone : mlookup m k = none :=
        mlookup_eq_none_of_not_mem_mkeys (hp ▸ hnd'.1)
      simp [mdelete, hp, mdelete_of_mlookup_none hnone]
    · simp only [mlookup, if_neg hp] at h
      simp only [mdelete, if_neg hp, List.length_cons]
      rw [← ih hnd'.2 h]

theorem mlookup_minsert_self (m : List (String × Nat)) (k : String) (i : Nat) :
    mlookup (minsert m k i) k = some i := by
  simp [minsert, mlookup]

theorem mlookup_minsert_ne {m : List (String × Nat)} {k k' : String} (i : Nat) (h : k' ≠ k) :
    mlookup (minsert m k i) k' = mlookup m k' := by
  have : ¬ k = k' := fun he => h he.symm
  simp [minsert, mlookup, this, mlookup_mdelete_ne h]

theorem mem_minsert {m : List (String × Nat)} {k : String} {i : Nat} {p : String × Nat} :
    p ∈ minsert m k i ↔ p = (k, i) ∨ (p ∈ m ∧ p.1 ≠ k) := by
  simp [minsert, mem_mdelete]

theorem not_mem_mkeys_of_mlookup_none {m : List (String × Nat)} {k : String}
    (h : mlookup m k = none) : k ∉ mkeys m := by
  rw [mlookup_eq_none_iff] at h
  intro hk
  rcases List.mem_map.mp hk with ⟨p, hp, he⟩
  exact h p hp he

theorem mkeys_nodup_minsert {m : List (String × Nat)} {k : String} (i : Nat)
    (h : (mkeys m).Nodup) : (mkeys (minsert m k i)).Nodup := by
  simp only [minsert, mkeys, List.map_cons, List.nodup_cons]
  exact ⟨not_mem_mkeys_of_mlookup_none (mlookup_mdelete_self m k),
    mkeys_nodup_mdelete h⟩

theorem length_minsert_of_none {m : List (String × Nat)} {k : String} (i : Nat)
    (h : mlookup m k = none) : (minsert m k i).length = m.length + 1 := by
  simp [minsert, mdelete_of_mlookup_none h]

/-! ## Helper lemmas: the arena -/

theorem length_hset (h : List Elem) (i : Nat) (e : Elem) : (hset h i e).length = h.length := by
  induction h generalizing i with
  | nil => rfl
  | cons x h ih =>
    cases i with
    | zero => rfl
    | succ n => simp [hset, ih]

theorem hget_hset_self {h : List Elem} {i : Nat} (e : Elem) (hi : i < h.length) :
    hget (hset h i e) i = e := by
  induction h generalizing i with
  | nil => cases hi
  | cons x h ih =>
    cases i with
    | zero => rfl
    | succ n => exact ih (Nat.lt_of_succ_lt_succ hi)

theorem hget_hset_ne {h : List Elem} {i j : Nat} (e : Elem) (hne : j ≠ i) :
    hget (hset h i e) j = hget h j := by
  induction h generalizing i j with
  | nil => rfl
  | cons x h ih =>
    cases i with
    | zero =>
      cases j with
      | zero => exact absurd rfl hne
      | succ m => rfl
    | succ n =>
      cases j with
      | zero => rfl
      | succ m => exact ih (fun he => hne (by rw [he]))

theorem hget_append_left {h : List Elem} {i : Nat} (e : Elem) (hi : i < h.length) :
    hget (h ++ [e]) i = hget h i := by
  induction h generalizing i with
  | nil => cases hi
  | cons x h ih =>
    cases i with
    | zero => rfl
    | succ n => exact ih (Nat.lt_of_succ_lt_succ hi)

theorem hget_append_right (h : List Elem) (e : Elem) : hget (h ++ [e]) h.length = e := by
  induction h with
  | nil => rfl
  | cons x h ih => exact ih

/-! ## Structural well-formedness -/

/-- The structural invariant of a Storage (spec section 3 "Principle"):
the two lists are duplicate-free and disjoint, every listed index is in
the arena, cache keys are unique, every cache binding points at a live
node carrying that key, every live node is indexed under its key, and
the cache and lruList have equal size. -/
def Storage.WF (s : Storage) : Prop :=
  s.lruList.Nodup ∧
  s.freeList.Nodup ∧
  (∀ i ∈ s.lruList, i ∉ s.freeList) ∧
  (∀ i ∈ s.lruList, i < s.heap.length) ∧
  (∀ i ∈ s.freeList, i < s.heap.length) ∧
  (mkeys s.cache).Nodup ∧
  (∀ p ∈ s.cache, p.2 ∈ s.lruList ∧ (s.elemAt p.2).key = p.1) ∧
  (∀ i ∈ s.lruList, mlookup s.cache ((s.elemAt i).key) = some i) ∧
  s.cache.length = s.lruList.length

instance (s : Storage) : Decidable s.WF := by
  unfold Storage.WF; infer_instance

theorem Storage.WF.lookup_facts {s : Storage} {k : String} {i : Nat} (hWF : s.WF)
    (h : mlookup s.cache k = some i) :
    i ∈ s.lruList ∧ (s.elemAt i).key = k ∧ i < s.heap.length ∧ i ∉ s.freeList := by
  obtain ⟨-, -, h3, h4, -, -, h7, -, -⟩ := hWF
  have hp := h7 _ (mem_of_mlookup_eq_some h)
  exact ⟨hp.1, hp.2, h4 _ hp.1, h3 _ hp.1⟩

/-! ## Projection lemmas for Storage.remove -/

theorem remove_cache (s : Storage) (eid : Nat) :
    (s.remove eid).cache = mdelete s.cache ((s.elemAt eid).key) := by
  simp only [Storage.remove]
  split <;> rfl

theorem remove_lruList (s : Storage) (eid : Nat) :
    (s.remove eid).lruList = lerase s.lruList eid := by
  simp only [Storage.remove]
  split <;> rfl

theorem remove_heap (s : Storage) (eid : Nat) :
    (s.remove eid).heap = hset s.heap eid
      { s.elemAt eid with key := "", value := none } := by
  simp only [Storage.remove]
  split <;> rfl

theorem remove_maxAge (s : Storage) (eid : Nat) : (s.remove eid).maxAge = s.maxAge := by
  simp only [Storage.remove]
  split <;> rfl

theorem remove_capacity (s : Storage) (eid : Nat) :
    (s.remove eid).capacity = s.capacity := by
  simp only [Storage.remove]
  split <;> rfl

theorem remove_freeList_discard (s : Storage) (eid : Nat) (hc : discardCond s) :
    (s.remove eid).freeList = s.freeList := by
  simp only [Storage.remove, if_pos hc]

theorem remove_freeList_keep (s : Storage) (eid : Nat) (hc : ¬ discardCond s) :
    (s.remove eid).freeList = eid :: s.freeList := by
  simp only [Storage.remove, if_neg hc]

/-! ## Claim C2: Add on a present key -/

/-- C2. For a key already present in the cache, Add overwrites the
value and slides the expiration to timenow + maxAge, moving the node
to the front, exactly when the existing entry is expired relative to
timenow; otherwise Add returns ErrNotStored and the whole state is
unchanged. -/
theorem add_hit_slides_iff_expired (w : Nat) (s : Storage) (k : String) (v : Val)
    (t : Int) (i : Nat) (hWF : s.WF) (h : mlookup s.cache k = some i) :
    (t > (s.elemAt i).expiration →
      (s.Add w k v t).2 = none ∧
      ((s.Add w k v t).1.elemAt i).value = v ∧
      ((s.Add w k v t).1.elemAt i).expiration = t + s.maxAge ∧
      ((s.Add w k v t).1.elemAt i).key = (s.elemAt i).key ∧
      (s.Add w k v t).1.lruList = moveToFront s.lruList i ∧
      (s.Add w k v t).1.cache = s.cache ∧
      (s.Add w k v t).1.freeList = s.freeList) ∧
    (¬ t > (s.elemAt i).expiration → s.Add w k v t = (s, some Err.notStored)) := by
  obtain ⟨-, -, hbound, -⟩ := hWF.lookup_facts h
  constructor
  · intro hexp
    have hA : s.Add w k v t =
        ({ s with
            heap := hset s.heap i
              { s.elemAt i with value := v, expiration := t + s.maxAge },
            lruList := moveToFront s.lruList i }, none) := by
      simp only [Storage.Add, h, if_pos hexp]
    rw [hA]
    refine ⟨rfl, ?_, ?_, ?_, rfl, rfl, rfl⟩ <;>
      simp [Storage.elemAt, hget_hset_self _ hbound]
  · intro hexp
    simp only [Storage.Add, h, if_neg hexp]

/-! ## Claim C4: the removal policy -/

/-- The disposal rule with both lengths read after the node has been
unlinked from the live list, following the claim's words (total
computed after the removal). -/
def Storage.removeClaim (s : Storage) (eid : Nat) : Storage :=
  let e := s.elemAt eid
  let cache' := mdelete s.cache e.key
  let heap' := hset s.heap eid { e with key := "", value := none }
  let lru' := lerase s.lruList eid
  let totalLen := lru'.length + s.freeList.length
  if totalLen > s.capacity ∧ lru'.length < s.capacity - s.capacity / 5 then
    { s with cache := cache', heap := heap', lruList := lru' }
  else
    { s with cache := cache', heap := heap', lruList := lru',
             freeList := eid :: s.freeList }

/-- A concrete state: capacity 5, three live nodes, three free nodes. -/
def sigma4 : Storage :=
  { heap := [⟨"a", some 1, 100⟩, ⟨"b", some 2, 100⟩, ⟨"c", some 3, 100⟩,
             emptyElem, emptyElem, emptyElem],
    lruList := [0, 1, 2], freeList := [3, 4, 5],
    cache := [("a", 0), ("b", 1), ("c", 2)], maxAge := 100, capacity := 5 }

/-- C4 counterexample.  In sigma4 (total 6 > capacity 5, live 3 <
capacity - capacity/5 = 4 with the node still counted), deleting "c"
discards node 2; with the lengths read after the removal as the claim
states (total 5, live 2) the discard condition is false and the node
would have been pushed onto the free list. -/
theorem remove_totals_counterexample :
    (sigma4.Delete "c").1 = sigma4.remove 2 ∧
    sigma4.remove 2 ≠ sigma4.removeClaim 2 ∧
    (sigma4.remove 2).freeList.length = 3 ∧
    (sigma4.removeClaim 2).freeList.length = 4 := by decide

/-- C4 amended.  Removing a live node deletes its Index entry and
clears its key and value; with total and live length read before the
node is unlinked from the live list (the node still counted), it is
permanently discarded (ends up on neither list) iff
total > capacity and live < capacity - capacity/5, and otherwise it is
pushed onto the front of the free list. -/
theorem remove_policy (s : Storage) (eid : Nat) (hWF : s.WF) (hmem : eid ∈ s.lruList) :
    (s.remove eid).cache = mdelete s.cache ((s.elemAt eid).key) ∧
    ((s.remove eid).elemAt eid).key = "" ∧
    ((s.remove eid).elemAt eid).value = none ∧
    (s.remove eid).lruList = lerase s.lruList eid ∧
    (s.lruList.length + s.freeList.length > s.capacity ∧
        s.lruList.length < s.capacity - s.capacity / 5 →
      (s.remove eid).freeList = s.freeList ∧
      eid ∉ (s.remove eid).lruList ∧ eid ∉ (s.remove eid).freeList) ∧
    (¬ (s.lruList.length + s.freeList.length > s.capacity ∧
        s.lruList.length < s.capacity - s.capacity / 5) →
      (s.remove eid).freeList = eid :: s.freeList) := by
  obtain ⟨hnd, -, hdisj, hb, -⟩ := hWF
  have hbound : eid < s.heap.length := hb _ hmem
  have hkey : ((s.remove eid).elemAt eid).key = "" := by
    simp [Storage.elemAt, remove_heap, hget_hset_self _ hbound]
  have hval : ((s.remove eid).elemAt eid).value = none := by
    simp [Storage.elemAt, remove_heap, hget_hset_self _ hbound]
  refine ⟨remove_cache s eid, hkey, hval, remove_lruList s eid, ?_, ?_⟩
  · intro hc
    refine ⟨remove_freeList_discard s eid hc, ?_, ?_⟩
    · rw [remove_lruList]
      exact not_mem_lerase_self hnd
    · rw [remove_freeList_discard s eid hc]
      exact hdisj _ hmem
  · intro hc
    exact remove_freeList_keep s eid hc

/-- Witness for remove_policy at a concrete input. -/
theorem remove_policy_witness :
    sigma4.WF ∧ 2 ∈ sigma4.lruList ∧
    ((sigma4.remove 2).cache = mdelete sigma4.cache ((sigma4.elemAt 2).key) ∧
    ((sigma4.remove 2).elemAt 2).key = "" ∧
    ((sigma4.remove 2).elemAt 2).value = none ∧
    (sigma4.remove 2).lruList = lerase sigma4.lruList 2 ∧
    (sigma4.lruList.length + sigma4.freeList.length > sigma4.capacity ∧
        sigma4.lruList.length < sigma4.capacity - sigma4.capacity / 5 →
      (sigma4.remove 2).freeList = sigma4.freeList ∧
      2 ∉ (sigma4.remove 2).lruList ∧ 2 ∉ (sigma4.remove 2).freeList) ∧
    (¬ (sigma4.lruList.length + sigma4.freeList.length > sigma4.capacity ∧
        sigma4.lruList.length < sigma4.capacity - sigma4.capacity / 5) →
      (sigma4.remove 2).freeList = 2 :: sigma4.freeList)) :=
  ⟨by decide, by decide, remove_policy sigma4 2 (by decide) (by decide)⟩

/-! ## Claim C6: Delete -/

/-- C6 counterexample.  Delete on an absent key returns a nil error,
not ErrNotFound (the claim's NotFound report does not happen). -/
theorem delete_absent_counterexample :
    ((Storage.new 100 3).Delete "x").1 = Storage.new 100 3 ∧
    ((Storage.new 100 3).Delete "x").2 = none ∧
    ((Storage.new 100 3).Delete "x").2 ≠ some Err.notFound := by decide

/-- C6 amended.  Delete on a present key removes it unconditionally
(no expiration test) and succeeds; Delete on an absent key mutates
nothing; in both cases the returned error is nil (success), never
NotFound. -/
theorem delete_spec (s : Storage) (k : String) (hWF : s.WF) :
    (s.Delete k).2 = none ∧
    (∀ i, mlookup s.cache k = some i →
      (s.Delete k).1 = s.remove i ∧
      mlookup ((s.Delete k).1).cache k = none ∧
      ((s.Delete k).1).LenOp + 1 = s.LenOp) ∧
    (mlookup s.cache k = none → (s.Delete k).1 = s) := by
  refine ⟨?_, ?_, ?_⟩
  · unfold Storage.Delete
    cases mlookup s.cache k <;> rfl
  · intro i h
    obtain ⟨hmem, hkey, -, -⟩ := hWF.lookup_facts h
    have h1 : (s.Delete k).1 = s.remove i := by simp [Storage.Delete, h]
    refine ⟨h1, ?_, ?_⟩
    · rw [h1, remove_cache, hkey]
      exact mlookup_mdelete_self _ _
    · rw [h1]
      unfold Storage.LenOp
      rw [remove_lruList]
      exact length_lerase_of_mem hmem
  · intro h
    simp [Storage.Delete, h]

/-- Witness for delete_spec at a concrete input. -/
theorem delete_spec_witness :
    sigma4.WF ∧
    ((sigma4.Delete "b").2 = none ∧
    (∀ i, mlookup sigma4.cache "b" = some i →
      (sigma4.Delete "b").1 = sigma4.remove i ∧
      mlookup ((sigma4.Delete "b").1).cache "b" = none ∧
      ((sigma4.Delete "b").1).LenOp + 1 = sigma4.LenOp) ∧
    (mlookup sigma4.cache "b" = none → (sigma4.Delete "b").1 = sigma4)) :=
  ⟨by decide, delete_spec sigma4 "b" (by decide)⟩

/-- Witness for add_hit_slides_iff_expired at a concrete input. -/
theorem add_hit_slides_iff_expired_witness :
    sigma4.WF ∧ mlookup sigma4.cache "a" = some 0 ∧
    ((150 > (sigma4.elemAt 0).expiration →
      (sigma4.Add 64 "a" (some 9) 150).2 = none ∧
      ((sigma4.Add 64 "a" (some 9) 150).1.elemAt 0).value = some 9 ∧
      ((sigma4.Add 64 "a" (some 9) 150).1.elemAt 0).expiration = 150 + sigma4.maxAge ∧
      ((sigma4.Add 64 "a" (some 9) 150).1.elemAt 0).key = (sigma4.elemAt 0).key ∧
      (sigma4.Add 64 "a" (some 9) 150).1.lruList = moveToFront sigma4.lruList 0 ∧
      (sigma4.Add 64 "a" (some 9) 150).1.cache = sigma4.cache ∧
      (sigma4.Add 64 "a" (some 9) 150).1.freeList = sigma4.freeList) ∧
    (¬ 150 > (sigma4.elemAt 0).expiration →
      sigma4.Add 64 "a" (some 9) 150 = (sigma4, some Err.notStored))) :=
  ⟨by decide, by decide,
    add_hit_slides_iff_expired 64 sigma4 "a" (some 9) 150 0 (by decide) (by decide)⟩

/-! ## Claim C1: Get -/

/-- C1.  Get on an absent key fails with NotFound and changes nothing;
Get on a present expired key (timenow strictly past the expiration)
evicts the entry through Storage.remove, fails with NotFound, and Len
reflects the removal immediately; Get on a present live key returns
the stored value, slides the expiration to timenow + maxAge, and moves
the node to the front of the live list. -/
theorem get_spec (s : Storage) (k : String) (t : Int) (hWF : s.WF) :
    (mlookup s.cache k = none → s.Get k t = (s, none, some Err.notFound)) ∧
    (∀ i, mlookup s.cache k = some i →
      (t > (s.elemAt i).expiration →
        s.Get k t = (s.remove i, none, some Err.notFound) ∧
        ((s.Get k t).1).LenOp + 1 = s.LenOp ∧
        mlookup ((s.Get k t).1).cache k = none) ∧
      (¬ t > (s.elemAt i).expiration →
        (s.Get k t).2.1 = (s.elemAt i).value ∧
        (s.Get k t).2.2 = none ∧
        ((s.Get k t).1.elemAt i).expiration = t + s.maxAge ∧
        (s.Get k t).1.lruList = moveToFront s.lruList i)) := by
  refine ⟨?_, ?_⟩
  · intro h
    simp [Storage.Get, h]
  · intro i h
    obtain ⟨hmem, hkey, hbound, -⟩ := hWF.lookup_facts h
    constructor
    · intro hexp
      have hG : s.Get k t = (s.remove i, none, some Err.notFound) := by
        simp only [Storage.Get, h, if_pos hexp]
      refine ⟨hG, ?_, ?_⟩
      · rw [hG]
        unfold Storage.LenOp
        rw [remove_lruList]
        exact length_lerase_of_mem hmem
      · rw [hG]
        simp only [remove_cache, hkey]
        exact mlookup_mdelete_self _ _
    · intro hexp
      have hG : s.Get k t =
          ({ s with
              heap := hset s.heap i
                { s.elemAt i with expiration := t + s.maxAge },
              lruList := moveToFront s.lruList i },
            (s.elemAt i).value, none) := by
        simp only [Storage.Get, h, if_neg hexp]
      rw [hG]
      refine ⟨rfl, rfl, ?_, rfl⟩
      simp [Storage.elemAt, hget_hset_self _ hbound]

/-- Witness for get_spec at a concrete input. -/
theorem get_spec_witness :
    sigma4.WF ∧
    ((mlookup sigma4.cache "a" = none →
      sigma4.Get "a" 150 = (sigma4, none, some Err.notFound)) ∧
    (∀ i, mlookup sigma4.cache "a" = some i →
      (150 > (sigma4.elemAt i).expiration →
        sigma4.Get "a" 150 = (sigma4.remove i, none, some Err.notFound) ∧
        ((sigma4.Get "a" 150).1).LenOp + 1 = sigma4.LenOp ∧
        mlookup ((sigma4.Get "a" 150).1).cache "a" = none) ∧
      (¬ 150 > (sigma4.elemAt i).expiration →
        (sigma4.Get "a" 150).2.1 = (sigma4.elemAt i).value ∧
        (sigma4.Get "a" 150).2.2 = none ∧
        ((sigma4.Get "a" 150).1.elemAt i).expiration = 150 + sigma4.maxAge ∧
        (sigma4.Get "a" 150).1.lruList = moveToFront sigma4.lruList i))) :=
  ⟨by decide, get_spec sigma4 "a" 150 (by decide)⟩

/-! ## Claim C3: admission of an absent key -/

/-- C3.  For a key absent from the cache, admission (Add and Set run
the same Storage.add) goes in order: (a) when the back of the live
list exists and is expired, that node is recycled in place (its old
key leaves the Index, it gets the new key/value/expiration, moves to
the front, and is indexed under the new key, the free list untouched);
(b) else when the free list is non-empty its front node is popped,
populated, pushed to the front of the live list and indexed; (c) else
(when the overflow guard passes) a fresh node is allocated, pushed to
the front and indexed. -/
theorem admission_spec (w : Nat) (s : Storage) (k : String) (v : Val) (t : Int)
    (hWF : s.WF) (habs : mlookup s.cache k = none) :
    (∀ i, lback s.lruList = some i → t > (s.elemAt i).expiration →
      (s.Add w k v t).2 = none ∧
      (s.Add w k v t).1.lruList = moveToFront s.lruList i ∧
      (s.Add w k v t).1.elemAt i = ⟨k, v, t + s.maxAge⟩ ∧
      mlookup (s.Add w k v t).1.cache ((s.elemAt i).key) = none ∧
      mlookup (s.Add w k v t).1.cache k = some i ∧
      (s.Add w k v t).1.freeList = s.freeList ∧
      (s.Add w k v t).1.cache.length = s.cache.length) ∧
    ((∀ i, lback s.lruList = some i → ¬ t > (s.elemAt i).expiration) →
      (∀ f rest, s.freeList = f :: rest →
        (s.Add w k v t).2 = none ∧
        (s.Add w k v t).1.freeList = rest ∧
        (s.Add w k v t).1.lruList = f :: s.lruList ∧
        (s.Add w k v t).1.elemAt f = ⟨k, v, t + s.maxAge⟩ ∧
        mlookup (s.Add w k v t).1.cache k = some f) ∧
      (s.freeList = [] → ¬ shlOverflowGuard w s.lruList.length →
        (s.Add w k v t).2 = none ∧
        (s.Add w k v t).1.lruList = s.heap.length :: s.lruList ∧
        (s.Add w k v t).1.elemAt s.heap.length = ⟨k, v, t + s.maxAge⟩ ∧
        mlookup (s.Add w k v t).1.cache k = some s.heap.length)) ∧
    s.Set w k v t = s.Add w k v t := by
  have hAdd : s.Add w k v t = s.add w k v t := by
    simp only [Storage.Add, habs]
  have hSet : s.Set w k v t = s.add w k v t := by
    simp only [Storage.Set, habs]
  obtain ⟨-, -, hdisj, hb, hbf, hknd, h7, h8, -⟩ := hWF
  refine ⟨?_, ?_, hSet.trans hAdd.symm⟩
  · intro i hback hexp
    have hmem : i ∈ s.lruList := mem_of_lback hback
    have hbound : i < s.heap.length := hb _ hmem
    have holdkey : mlookup s.cache ((s.elemAt i).key) = some i := h8 _ hmem
    have hkne : (s.elemAt i).key ≠ k := by
      intro he
      rw [he, habs] at holdkey
      cases holdkey
    have ha : s.add w k v t =
        ({ s with
            cache := minsert (mdelete s.cache (s.elemAt i).key) k i,
            heap := hset s.heap i ⟨k, v, t + s.maxAge⟩,
            lruList := moveToFront s.lruList i }, none) := by
      simp only [Storage.add, hback, if_pos hexp]
    rw [hAdd, ha]
    refine ⟨rfl, rfl, ?_, ?_, ?_, rfl, ?_⟩
    · simp [Storage.elemAt, hget_hset_self _ hbound]
    · rw [mlookup_minsert_ne _ hkne]
      exact mlookup_mdelete_self _ _
    · exact mlookup_minsert_self _ _ _
    · have hnone : mlookup (mdelete s.cache ((s.elemAt i).key)) k = none := by
        rw [mlookup_mdelete_ne (fun he => hkne he.symm)]
        exact habs
      show (minsert (mdelete s.cache ((s.elemAt i).key)) k i).length = s.cache.length
      rw [length_minsert_of_none _ hnone]
      exact length_mdelete_of_some hknd holdkey
  · intro hnoback
    have hNR : s.add w k v t = s.addNoReuse w k v t := by
      cases hback : lback s.lruList with
      | none => simp only [Storage.add, hback]
      | some i => simp only [Storage.add, hback, if_neg (hnoback i hback)]
    constructor
    · intro f rest hfree
      have hfmem : f ∈ s.freeList := by rw [hfree]; exact List.mem_cons_self _ _
      have hbound : f < s.heap.length := hbf _ hfmem
      have ha : s.addNoReuse w k v t =
          ({ s with
              freeList := rest,
              heap := hset s.heap f ⟨k, v, t + s.maxAge⟩,
              lruList := f :: s.lruList,
              cache := minsert s.cache k f }, none) := by
        simp only [Storage.addNoReuse, hfree]
      rw [hAdd, hNR, ha]
      refine ⟨rfl, rfl, rfl, ?_, ?_⟩
      · simp [Storage.elemAt, hget_hset_self _ hbound]
      · exact mlookup_minsert_self _ _ _
    · intro hfree hguard
      have ha : s.addNoReuse w k v t =
          ({ s with
              heap := s.heap ++ [⟨k, v, t + s.maxAge⟩],
              lruList := s.heap.length :: s.lruList,
              cache := minsert s.cache k s.heap.length }, none) := by
        simp only [Storage.addNoReuse, hfree, if_neg hguard]
      rw [hAdd, hNR, ha]
      refine ⟨rfl, rfl, ?_, ?_⟩
      · simp only [Storage.elemAt, hget_append_right]
      · exact mlookup_minsert_self _ _ _

/-- Witness for admission_spec at a concrete input (recycle case: the
back of sigma4 is expired at time 300). -/
theorem admission_spec_witness :
    sigma4.WF ∧ mlookup sigma4.cache "d" = none ∧
    (∀ i, lback sigma4.lruList = some i → 300 > (sigma4.elemAt i).expiration →
      (sigma4.Add 64 "d" (some 4) 300).2 = none ∧
      (sigma4.Add 64 "d" (some 4) 300).1.lruList = moveToFront sigma4.lruList i ∧
      (sigma4.Add 64 "d" (some 4) 300).1.elemAt i = ⟨"d", some 4, 300 + sigma4.maxAge⟩ ∧
      mlookup (sigma4.Add 64 "d" (some 4) 300).1.cache ((sigma4.elemAt i).key) = none ∧
      mlookup (sigma4.Add 64 "d" (some 4) 300).1.cache "d" = some i ∧
      (sigma4.Add 64 "d" (some 4) 300).1.freeList = sigma4.freeList ∧
      (sigma4.Add 64 "d" (some 4) 300).1.cache.length = sigma4.cache.length) :=
  ⟨by decide, by decide,
    (admission_spec 64 sigma4 "d" (some 4) 300 (by decide) (by decide)).1⟩

/-! ## Claim C9: the overflow guard -/

/-- The largest value of a w-bit signed int. -/
def maxIntOf (w : Nat) : Nat := 2 ^ (w - 1) - 1

/-- For list lengths within the physical signed range, the Go test
Len()<<1 == -2 holds exactly at the largest signed value. -/
theorem shlOverflowGuard_iff {w n : Nat} (hw : 2 ≤ w) (hn : n ≤ maxIntOf w) :
    shlOverflowGuard w n ↔ n = maxIntOf w := by
  have hpow : 2 ^ w = 2 * 2 ^ (w - 1) := by
    conv_lhs => rw [show w = (w - 1) + 1 by omega]
    rw [pow_succ]
    ring
  have hP : 2 ≤ 2 ^ (w - 1) := by
    calc (2 : Nat) = 2 ^ 1 := rfl
    _ ≤ 2 ^ (w - 1) := Nat.pow_le_pow_right (by norm_num) (by omega)
  unfold maxIntOf at hn
  have hval : (2 * n) % 2 ^ w = 2 * n := Nat.mod_eq_of_lt (by omega)
  unfold shlOverflowGuard signedOfBits maxIntOf
  rw [hval]
  have hcast : ((2 : Int) ^ w) = ((2 ^ w : Nat) : Int) := by push_cast; ring
  by_cases hlt : 2 * n < 2 ^ (w - 1)
  · rw [if_pos hlt]
    constructor
    · intro h
      have h0 : (0 : Int) ≤ ((2 * n : Nat) : Int) := Int.ofNat_nonneg _
      omega
    · intro h
      omega
  · rw [if_neg hlt, hcast]
    constructor
    · intro h
      omega
    · intro h
      omega

/-- C9.  For an absent key (with the live-list length physically inside
the signed range), Add is rejected with ErrNotStored exactly when the
free list is empty, the back of the live list is absent or not expired,
and the live-list length is at the maximum signed int; in every other
state the admission succeeds.  Set runs the same admission. -/
theorem capacity_guard_spec (w : Nat) (s : Storage) (k : String) (v : Val) (t : Int)
    (hw : 2 ≤ w) (habs : mlookup s.cache k = none)
    (hbound : s.lruList.length ≤ maxIntOf w) :
    ((s.Add w k v t).2 = some Err.notStored ↔
      (s.freeList = [] ∧
       (∀ i, lback s.lruList = some i → ¬ t > (s.elemAt i).expiration) ∧
       s.lruList.length = maxIntOf w)) ∧
    ((s.Add w k v t).2 = none ↔
      ¬ (s.freeList = [] ∧
         (∀ i, lback s.lruList = some i → ¬ t > (s.elemAt i).expiration) ∧
         s.lruList.length = maxIntOf w)) ∧
    s.Set w k v t = s.Add w k v t := by
  have hAdd : s.Add w k v t = s.add w k v t := by simp only [Storage.Add, habs]
  have hSet : s.Set w k v t = s.add w k v t := by simp only [Storage.Set, habs]
  have hNRkey : (∀ i, lback s.lruList = some i → ¬ t > (s.elemAt i).expiration) →
      ((s.addNoReuse w k v t).2 = some Err.notStored ↔
        (s.freeList = [] ∧
         (∀ i, lback s.lruList = some i → ¬ t > (s.elemAt i).expiration) ∧
         s.lruList.length = maxIntOf w)) := by
    intro hyp
    cases hfree : s.freeList with
    | cons f rest =>
      have hnr : (s.addNoReuse w k v t).2 = none := by
        simp only [Storage.addNoReuse, hfree]
      rw [hnr]
      constructor
      · intro h
        cases h
      · rintro ⟨he, -, -⟩
        cases he
    | nil =>
      by_cases hg : shlOverflowGuard w s.lruList.length
      · have hnr : (s.addNoReuse w k v t).2 = some Err.notStored := by
          simp only [Storage.addNoReuse, hfree, if_pos hg]
        rw [hnr]
        constructor
        · intro _
          exact ⟨rfl, hyp, (shlOverflowGuard_iff hw hbound).mp hg⟩
        · intro _
          rfl
      · have hnr : (s.addNoReuse w k v t).2 = none := by
          simp only [Storage.addNoReuse, hfree, if_neg hg]
        rw [hnr]
        constructor
        · intro h
          cases h
        · rintro ⟨-, -, hlen⟩
          exact absurd ((shlOverflowGuard_iff hw hbound).mpr hlen) hg
  have key : (s.add w k v t).2 = some Err.notStored ↔
      (s.freeList = [] ∧
       (∀ i, lback s.lruList = some i → ¬ t > (s.elemAt i).expiration) ∧
       s.lruList.length = maxIntOf w) := by
    cases hback : lback s.lruList with
    | some i =>
      by_cases hexp : t > (s.elemAt i).expiration
      · have ha : (s.add w k v t).2 = none := by
          simp only [Storage.add, hback, if_pos hexp]
        rw [ha]
        constructor
        · intro h
          cases h
        · rintro ⟨-, h2, -⟩
          exact absurd hexp (h2 i rfl)
      · have ha : s.add w k v t = s.addNoReuse w k v t := by
          simp only [Storage.add, hback, if_neg hexp]
        rw [ha, ← hback]
        apply hNRkey
        intro j hj
        rw [hback] at hj
        cases hj
        exact hexp
    | none =>
      have ha : s.add w k v t = s.addNoReuse w k v t := by
        simp only [Storage.add, hback]
      rw [ha, ← hback]
      apply hNRkey
      intro j hj
      rw [hback] at hj
      cases hj
  have honly : (s.add w k v t).2 = none ∨ (s.add w k v t).2 = some Err.notStored := by
    have hNR : (s.addNoReuse w k v t).2 = none ∨
        (s.addNoReuse w k v t).2 = some Err.notStored := by
      cases hfree : s.freeList with
      | cons f rest => exact Or.inl (by simp only [Storage.addNoReuse, hfree])
      | nil =>
        by_cases hg : shlOverflowGuard w s.lruList.length
        · exact Or.inr (by simp only [Storage.addNoReuse, hfree, if_pos hg])
        · exact Or.inl (by simp only [Storage.addNoReuse, hfree, if_neg hg])
    cases hback : lback s.lruList with
    | some i =>
      by_cases hexp : t > (s.elemAt i).expiration
      · exact Or.inl (by simp only [Storage.add, hback, if_pos hexp])
      · simpa only [Storage.add, hback, if_neg hexp] using hNR
    | none => simpa only [Storage.add, hback] using hNR
  rw [hAdd, hSet]
  refine ⟨key, ?_, rfl⟩
  constructor
  · intro hnone htriple
    rw [key.mpr htriple] at hnone
    cases hnone
  · intro htriple
    cases honly with
    | inl h => exact h
    | inr h => exact absurd (key.mp h) htriple

/-- A concrete state at the signed bound for width 2: one live
non-expired node, empty free list. -/
def sigma9 : Storage :=
  { heap := [⟨"a", some 1, 100⟩], lruList := [0], freeList := [],
    cache := [("a", 0)], maxAge := 50, capacity := 1 }

/-- Witness for capacity_guard_spec at a concrete input. -/
theorem capacity_guard_spec_witness :
    2 ≤ 2 ∧ mlookup sigma9.cache "b" = none ∧
    sigma9.lruList.length ≤ maxIntOf 2 ∧
    (((sigma9.Add 2 "b" (some 2) 50).2 = some Err.notStored ↔
      (sigma9.freeList = [] ∧
       (∀ i, lback sigma9.lruList = some i → ¬ (50 : Int) > (sigma9.elemAt i).expiration) ∧
       sigma9.lruList.length = maxIntOf 2)) ∧
    ((sigma9.Add 2 "b" (some 2) 50).2 = none ↔
      ¬ (sigma9.freeList = [] ∧
         (∀ i, lback sigma9.lruList = some i → ¬ (50 : Int) > (sigma9.elemAt i).expiration) ∧
         sigma9.lruList.length = maxIntOf 2)) ∧
    sigma9.Set 2 "b" (some 2) 50 = sigma9.Add 2 "b" (some 2) 50) :=
  ⟨le_refl 2, by decide, by decide,
    capacity_guard_spec 2 sigma9 "b" (some 2) 50 (le_refl 2) (by decide) (by decide)⟩

/-! ## The gc sweep, characterized -/

/-- Whether the arena element at an index is expired at time t. -/
def expiredB (h : List Elem) (t : Int) (i : Nat) : Bool :=
  decide (t > (hget h i).expiration)

/-- Clear the key and value of each listed arena element, in order. -/
def clearAll (h : List Elem) : List Nat → List Elem
  | [] => h
  | i :: ids => clearAll (hset h i { hget h i with key := "", value := none }) ids

/-- Delete a list of keys from the cache, in order. -/
def mdeletes (c : List (String × Nat)) : List String → List (String × Nat)
  | [] => c
  | k :: ks => mdeletes (mdelete c k) ks

theorem hset_oob {h : List Elem} {i : Nat} (e : Elem) (hi : h.length ≤ i) :
    hset h i e = h := by
  induction h generalizing i with
  | nil => rfl
  | cons x h ih =>
    cases i with
    | zero => cases hi
    | succ n => simp [hset, ih (Nat.le_of_succ_le_succ hi)]

theorem expiredB_hset_clear (h : List Elem) (t : Int) (i : Nat) :
    expiredB (hset h i { hget h i with key := "", value := none }) t = expiredB h t := by
  funext j
  unfold expiredB
  by_cases hj : j = i
  · subst hj
    by_cases hb : j < h.length
    · rw [hget_hset_self _ hb]
    · rw [hset_oob _ (Nat.le_of_not_lt hb)]
  · rw [hget_hset_ne _ hj]

/-- The gc sweep in closed form: with rev the reversed live list
(duplicate-free), the expired back-run (the longest expired front
segment of rev) is cleared in the arena, its keys leave the cache, its
nodes are pushed one by one onto the front of the free list, and the
live list keeps exactly the rest. -/
theorem gcSweepRev_eq (t : Int) (s : Storage) (rev : List Nat) (hnd : rev.Nodup) :
    gcSweepRev t s rev =
      { s with
          heap := clearAll s.heap (rev.takeWhile (expiredB s.heap t)),
          cache := mdeletes s.cache
            ((rev.takeWhile (expiredB s.heap t)).map (fun i => (s.elemAt i).key)),
          freeList := (rev.takeWhile (expiredB s.heap t)).reverse ++ s.freeList,
          lruList := (rev.dropWhile (expiredB s.heap t)).reverse } := by
  induction rev generalizing s with
  | nil => rfl
  | cons i rest ih =>
    rcases List.nodup_cons.mp hnd with ⟨hi, hrest⟩
    by_cases hp : t > (s.elemAt i).expiration
    · have hpb : expiredB s.heap t i = true := decide_eq_true hp
      have hstep : gcSweepRev t s (i :: rest) =
          gcSweepRev t
            { s with
                heap := hset s.heap i { s.elemAt i with key := "", value := none },
                cache := mdelete s.cache (s.elemAt i).key,
                freeList := i :: s.freeList,
                lruList := rest.reverse } rest := by
        simp only [gcSweepRev, if_pos hp]
      rw [hstep, ih _ hrest]
      rw [List.takeWhile_cons_of_pos hpb, List.dropWhile_cons_of_pos hpb]
      have hheq : (hset s.heap i { s.elemAt i with key := "", value := none }) =
          (⟨hset s.heap i { s.elemAt i with key := "", value := none },
            rest.reverse, i :: s.freeList, mdelete s.cache (s.elemAt i).key,
            s.maxAge, s.capacity⟩ : Storage).heap := rfl
      have hpredeq : expiredB (hset s.heap i
          { s.elemAt i with key := "", value := none }) t = expiredB s.heap t := by
        simpa [Storage.elemAt] using expiredB_hset_clear s.heap t i
      have hmapeq : (rest.takeWhile (expiredB s.heap t)).map
            (fun j => (hget (hset s.heap i
              { s.elemAt i with key := "", value := none }) j).key) =
          (rest.takeWhile (expiredB s.heap t)).map (fun j => (s.elemAt j).key) := by
        apply List.map_congr_left
        intro j hj
        have hjr : j ∈ rest := (List.takeWhile_sublist _).subset hj
        have hne : j ≠ i := fun he => hi (he ▸ hjr)
        simp [Storage.elemAt, hget_hset_ne _ hne]
      simp only [Storage.elemAt] at hpredeq hmapeq ⊢
      rw [hpredeq, hmapeq]
      simp [clearAll, mdeletes, Storage.elemAt, List.reverse_cons, List.append_assoc]
    · have hpb : ¬ expiredB s.heap t i = true := by
        simpa [expiredB, Storage.elemAt] using hp
      have hstep : gcSweepRev t s (i :: rest) = { s with lruList := (i :: rest).reverse } := by
        simp only [gcSweepRev, if_neg hp]
      rw [hstep, List.takeWhile_cons_of_neg hpb, List.dropWhile_cons_of_neg hpb]
      rfl

theorem mlookup_mdelete_none {c : List (String × Nat)} {k : String} (k' : String)
    (h : mlookup c k = none) : mlookup (mdelete c k') k = none := by
  by_cases he : k = k'
  · subst he
    exact mlookup_mdelete_self c k
  · rw [mlookup_mdelete_ne he]
    exact h

theorem mlookup_mdeletes_none {c : List (String × Nat)} {ks : List String} {k : String}
    (h : mlookup c k = none) : mlookup (mdeletes c ks) k = none := by
  induction ks generalizing c with
  | nil => exact h
  | cons k' ks ih => exact ih (mlookup_mdelete_none k' h)

theorem mlookup_mdeletes_of_mem {c : List (String × Nat)} {ks : List String} {k : String}
    (h : k ∈ ks) : mlookup (mdeletes c ks) k = none := by
  induction ks generalizing c with
  | nil => cases h
  | cons k' ks ih =>
    rcases List.mem_cons.mp h with rfl | hmem
    · show mlookup (mdeletes (mdelete c k) ks) k = none
      exact mlookup_mdeletes_none (mlookup_mdelete_self c k)
    · exact ih hmem

theorem mlookup_mdeletes_not_mem {c : List (String × Nat)} {ks : List String} {k : String}
    (h : k ∉ ks) : mlookup (mdeletes c ks) k = mlookup c k := by
  induction ks generalizing c with
  | nil => rfl
  | cons k' ks ih =>
    simp only [List.mem_cons, not_or] at h
    rw [show mdeletes c (k' :: ks) = mdeletes (mdelete c k') ks from rfl, ih h.2,
      mlookup_mdelete_ne h.1]

theorem mem_mdeletes {c : List (String × Nat)} {ks : List String} {p : String × Nat} :
    p ∈ mdeletes c ks ↔ p ∈ c ∧ p.1 ∉ ks := by
  induction ks generalizing c with
  | nil => simp [mdeletes]
  | cons k' ks ih =>
    rw [show mdeletes c (k' :: ks) = mdeletes (mdelete c k') ks from rfl, ih, mem_mdelete]
    simp only [List.mem_cons, not_or]
    tauto

theorem mkeys_nodup_mdeletes {c : List (String × Nat)} {ks : List String}
    (h : (mkeys c).Nodup) : (mkeys (mdeletes c ks)).Nodup := by
  induction ks generalizing c with
  | nil => exact h
  | cons k' ks ih => exact ih (mkeys_nodup_mdelete h)

theorem length_mdeletes {c : List (String × Nat)} {ks : List String}
    (hc : (mkeys c).Nodup) (hks : ks.Nodup)
    (hin : ∀ k ∈ ks, ∃ i, mlookup c k = some i) :
    (mdeletes c ks).length + ks.length = c.length := by
  induction ks generalizing c with
  | nil => rfl
  | cons k ks ih =>
    rcases List.nodup_cons.mp hks with ⟨hk, hks'⟩
    obtain ⟨i, hi⟩ := hin k (List.mem_cons_self _ _)
    have h1 : (mdeletes (mdelete c k) ks).length + ks.length = (mdelete c k).length := by
      apply ih (mkeys_nodup_mdelete hc) hks'
      intro k' hk'
      obtain ⟨j, hj⟩ := hin k' (List.mem_cons_of_mem _ hk')
      refine ⟨j, ?_⟩
      rw [mlookup_mdelete_ne (fun he => hk (by rw [← he]; exact hk'))]
      exact hj
    have h2 : (mdelete c k).length + 1 = c.length := length_mdelete_of_some hc hi
    have h3 : mdeletes c (k :: ks) = mdeletes (mdelete c k) ks := rfl
    rw [h3, List.length_cons]
    omega

/-! ## Claim C5: the reclaimer -/

/-- The reclaimer exactly as the claim words it: while the tail of the
live list is expired, remove it using the removal policy of section
4.4 (Storage.remove); afterwards, if totalLen > capacity and the live
length is under capacity - capacity/5, discard free-list nodes from
the front until the total reaches capacity or the free list is empty. -/
def gcClaimSweep (t : Int) : Storage → List Nat → Storage
  | s, [] => s
  | s, i :: rest =>
    if t > (s.elemAt i).expiration then gcClaimSweep t (s.remove i) rest else s

/-- The full per-claim reclaimer: claim-worded sweep, then the trim. -/
def Storage.gcClaim (s : Storage) (t : Int) : Storage :=
  let s1 := gcClaimSweep t s s.lruList.reverse
  if discardCond s1 then
    { s1 with freeList :=
        s1.freeList.drop (s1.lruList.length + s1.freeList.length - s1.capacity) }
  else s1

/-- A concrete state: capacity 10, twelve expired live nodes (indices
0..11 front to back), empty free list. -/
def sigma5 : Storage :=
  { heap := (List.range 12).map (fun i => ⟨toString i, some i, (i : Int)⟩),
    lruList := List.range 12, freeList := [],
    cache := (List.range 12).map (fun i => (toString i, i)),
    maxAge := 100, capacity := 10 }

/-- C5 counterexample.  On sigma5 at time 1000 the real gc pushes all
twelve expired nodes onto the free list during the sweep and the trim
then discards nodes 11 and 10 from its front; the claim's procedure
(per-node removal policy during the sweep) instead discards nodes 6
and 5 mid-sweep and trims nothing, so the resulting free lists (and
hence the states) differ. -/
theorem gc_sweep_policy_counterexample :
    (sigma5.gc 1000).freeList = [2, 3, 4, 5, 6, 7, 8, 9, 10, 11] ∧
    (sigma5.gcClaim 1000).freeList = [0, 1, 2, 3, 4, 7, 8, 9, 10, 11] ∧
    sigma5.gc 1000 ≠ sigma5.gcClaim 1000 := by decide


/-- Storage.gc in closed form (shared helper). -/
theorem gc_eq (s : Storage) (t : Int) (hnd : s.lruList.Nodup) :
    s.gc t =
      (fun s1 : Storage =>
        if discardCond s1 then
          { s1 with freeList :=
              s1.freeList.drop (s1.lruList.length + s1.freeList.length - s1.capacity) }
        else s1)
      { s with
          heap := clearAll s.heap ((s.lruList.reverse).takeWhile (expiredB s.heap t)),
          cache := mdeletes s.cache
            (((s.lruList.reverse).takeWhile (expiredB s.heap t)).map
              (fun i => (s.elemAt i).key)),
          freeList := ((s.lruList.reverse).takeWhile (expiredB s.heap t)).reverse ++
            s.freeList,
          lruList := ((s.lruList.reverse).dropWhile (expiredB s.heap t)).reverse } := by
  simp only [Storage.gc, gcSweepRev_eq t s _ (List.nodup_reverse.mpr hnd)]

theorem gc_lruList_eq (s : Storage) (t : Int) (hnd : s.lruList.Nodup) :
    (s.gc t).lruList =
      ((s.lruList.reverse).dropWhile (expiredB s.heap t)).reverse := by
  rw [gc_eq s t hnd]
  beta_reduce
  split <;> rfl

theorem gc_cache_eq (s : Storage) (t : Int) (hnd : s.lruList.Nodup) :
    (s.gc t).cache = mdeletes s.cache
      (((s.lruList.reverse).takeWhile (expiredB s.heap t)).map
        (fun i => (s.elemAt i).key)) := by
  rw [gc_eq s t hnd]
  beta_reduce
  split <;> rfl

theorem gc_heap_eq (s : Storage) (t : Int) (hnd : s.lruList.Nodup) :
    (s.gc t).heap =
      clearAll s.heap ((s.lruList.reverse).takeWhile (expiredB s.heap t)) := by
  rw [gc_eq s t hnd]
  beta_reduce
  split <;> rfl

theorem gc_maxAge_eq (s : Storage) (t : Int) (hnd : s.lruList.Nodup) :
    (s.gc t).maxAge = s.maxAge := by
  rw [gc_eq s t hnd]
  beta_reduce
  split <;> rfl

theorem gc_capacity_eq (s : Storage) (t : Int) (hnd : s.lruList.Nodup) :
    (s.gc t).capacity = s.capacity := by
  rw [gc_eq s t hnd]
  beta_reduce
  split <;> rfl

/-! ## Claim C10: strict comparison at the expiration boundary -/

/-- C10.  An entry whose expiration equals the current time is still
live everywhere: Get returns its value and slides its expiration, Add
on its key fails with ErrNotStored leaving the state unchanged, the gc
sweep does not evict it (its cache binding and live node survive), and
the admission of a fresh key does not recycle it even when it is the
back of the live list. -/
theorem strict_expiry_boundary (w : Nat) (s : Storage) (k : String) (v : Val)
    (t : Int) (i : Nat) (hWF : s.WF) (h : mlookup s.cache k = some i)
    (hexp : (s.elemAt i).expiration = t) :
    (s.Get k t).2.1 = (s.elemAt i).value ∧
    (s.Get k t).2.2 = none ∧
    ((s.Get k t).1.elemAt i).expiration = t + s.maxAge ∧
    s.Add w k v t = (s, some Err.notStored) ∧
    mlookup (s.gc t).cache k = some i ∧
    i ∈ (s.gc t).lruList ∧
    (∀ k' v', mlookup s.cache k' = none → lback s.lruList = some i →
      mlookup ((s.Add w k' v' t).1).cache k = some i ∧
      i ∈ ((s.Add w k' v' t).1).lruList) := by
  obtain ⟨hmem, hkey, hbound, -⟩ := hWF.lookup_facts h
  have hnotgt : ¬ t > (s.elemAt i).expiration := by
    rw [hexp]
    exact lt_irrefl t
  have hG : s.Get k t =
      ({ s with
          heap := hset s.heap i { s.elemAt i with expiration := t + s.maxAge },
          lruList := moveToFront s.lruList i },
        (s.elemAt i).value, none) := by
    simp only [Storage.Get, h, if_neg hnotgt]
  have hnd := hWF.1
  have hrm : ∀ j ∈ (s.lruList.reverse).takeWhile (expiredB s.heap t),
      t > (s.elemAt j).expiration := by
    intro j hj
    have hb := List.mem_takeWhile_imp hj
    simpa [expiredB] using hb
  have hinkept : i ∈ (s.lruList.reverse).dropWhile (expiredB s.heap t) := by
    have hirev : i ∈ s.lruList.reverse := List.mem_reverse.mpr hmem
    rw [← List.takeWhile_append_dropWhile (expiredB s.heap t) s.lruList.reverse] at hirev
    rcases List.mem_append.mp hirev with h1 | h2
    · exact absurd (hrm i h1) hnotgt
    · exact h2
  refine ⟨?_, ?_, ?_, ?_, ?_, ?_, ?_⟩
  · rw [hG]
  · rw [hG]
  · rw [hG]
    simp [Storage.elemAt, hget_hset_self _ hbound]
  · simp only [Storage.Add, h, if_neg hnotgt]
  · rw [gc_cache_eq s t hnd]
    have hnotks : k ∉ ((s.lruList.reverse).takeWhile (expiredB s.heap t)).map
        (fun j => (s.elemAt j).key) := by
      intro hk
      rcases List.mem_map.mp hk with ⟨j, hj, hje⟩
      have hjexp := hrm j hj
      have hlj : mlookup s.cache ((s.elemAt j).key) = some j :=
        hWF.2.2.2.2.2.2.2.1 j ((List.takeWhile_sublist _).subset
          (by exact hj) |> List.mem_reverse.mp)
      rw [hje, h] at hlj
      cases hlj
      exact absurd hjexp hnotgt
    rw [mlookup_mdeletes_not_mem hnotks]
    exact h
  · rw [gc_lruList_eq s t hnd]
    exact List.mem_reverse.mpr hinkept
  · intro k' v' habs hback
    have hkne : k ≠ k' := by
      intro he
      rw [← he, h] at habs
      cases habs
    have hAdd : s.Add w k' v' t = s.add w k' v' t := by
      simp only [Storage.Add, habs]
    have hNR : s.add w k' v' t = s.addNoReuse w k' v' t := by
      simp only [Storage.add, hback, if_neg hnotgt]
    rw [hAdd, hNR]
    cases hfree : s.freeList with
    | cons f rest =>
      have ha : s.addNoReuse w k' v' t =
          ({ s with
              freeList := rest,
              heap := hset s.heap f ⟨k', v', t + s.maxAge⟩,
              lruList := f :: s.lruList,
              cache := minsert s.cache k' f }, none) := by
        simp only [Storage.addNoReuse, hfree]
      rw [ha]
      exact ⟨by rw [mlookup_minsert_ne _ hkne]; exact h,
        List.mem_cons_of_mem _ hmem⟩
    | nil =>
      by_cases hg : shlOverflowGuard w s.lruList.length
      · have ha : s.addNoReuse w k' v' t = (s, some Err.notStored) := by
          simp only [Storage.addNoReuse, hfree, if_pos hg]
        rw [ha]
        exact ⟨h, hmem⟩
      · have ha : s.addNoReuse w k' v' t =
            ({ s with
                heap := s.heap ++ [⟨k', v', t + s.maxAge⟩],
                lruList := s.heap.length :: s.lruList,
                cache := minsert s.cache k' s.heap.length }, none) := by
          simp only [Storage.addNoReuse, hfree, if_neg hg]
        rw [ha]
        exact ⟨by rw [mlookup_minsert_ne _ hkne]; exact h,
          List.mem_cons_of_mem _ hmem⟩

/-- Witness for strict_expiry_boundary at a concrete input (sigma4 at
time 100, exactly the expiration of key "c" at the back). -/
theorem strict_expiry_boundary_witness :
    sigma4.WF ∧ mlookup sigma4.cache "c" = some 2 ∧
    (sigma4.elemAt 2).expiration = 100 ∧
    ((sigma4.Get "c" 100).2.1 = (sigma4.elemAt 2).value ∧
    (sigma4.Get "c" 100).2.2 = none ∧
    ((sigma4.Get "c" 100).1.elemAt 2).expiration = 100 + sigma4.maxAge ∧
    sigma4.Add 64 "c" (some 7) 100 = (sigma4, some Err.notStored) ∧
    mlookup (sigma4.gc 100).cache "c" = some 2 ∧
    2 ∈ (sigma4.gc 100).lruList ∧
    (∀ k' v', mlookup sigma4.cache k' = none → lback sigma4.lruList = some 2 →
      mlookup ((sigma4.Add 64 k' v' 100).1).cache "c" = some 2 ∧
      2 ∈ ((sigma4.Add 64 k' v' 100).1).lruList)) :=
  ⟨by decide, by decide, by decide,
    strict_expiry_boundary 64 sigma4 "c" (some 7) 100 2 (by decide) (by decide) (by decide)⟩

/-! ## Preservation of the structural invariant -/

theorem length_clearAll (h : List Elem) (ids : List Nat) :
    (clearAll h ids).length = h.length := by
  induction ids generalizing h with
  | nil => rfl
  | cons i ids ih => rw [clearAll, ih, length_hset]

theorem hget_clearAll_not_mem {h : List Elem} {ids : List Nat} {j : Nat} (hj : j ∉ ids) :
    hget (clearAll h ids) j = hget h j := by
  induction ids generalizing h with
  | nil => rfl
  | cons i ids ih =>
    simp only [List.mem_cons, not_or] at hj
    rw [clearAll, ih hj.2, hget_hset_ne _ hj.1]

theorem hget_clearAll_mem {h : List Elem} {ids : List Nat} {j : Nat}
    (hnd : ids.Nodup) (hj : j ∈ ids) (hb : j < h.length) :
    hget (clearAll h ids) j = { hget h j with key := "", value := none } := by
  induction ids generalizing h with
  | nil => cases hj
  | cons i ids ih =>
    rcases List.nodup_cons.mp hnd with ⟨hi, hnd'⟩
    rcases List.mem_cons.mp hj with rfl | hmem
    · rw [clearAll, hget_clearAll_not_mem hi, hget_hset_self _ hb]
    · have hne : j ≠ i := fun he => hi (by rw [← he]; exact hmem)
      rw [clearAll, ih hnd' hmem (by rw [length_hset]; exact hb), hget_hset_ne _ hne]

theorem mem_freeInit {n i : Nat} : i ∈ freeInit n ↔ i < n := by
  induction n with
  | zero => simp [freeInit]
  | succ m ih =>
    simp only [freeInit, List.mem_cons, ih]
    omega

theorem nodup_freeInit (n : Nat) : (freeInit n).Nodup := by
  induction n with
  | zero => exact List.nodup_nil
  | succ m ih =>
    rw [freeInit]
    exact List.nodup_cons.mpr ⟨fun h => absurd (mem_freeInit.mp h) (lt_irrefl m), ih⟩

/-- The initial state is well formed. -/
theorem WF_new (mA : Int) (cap : Nat) : (Storage.new mA cap).WF := by
  refine ⟨List.nodup_nil, nodup_freeInit cap, ?_, ?_, ?_, List.nodup_nil, ?_, ?_, rfl⟩
  · intro i hi
    cases hi
  · intro i hi
    cases hi
  · intro i hi
    rw [show (Storage.new mA cap).heap = List.replicate cap emptyElem from rfl,
      List.length_replicate]
    exact mem_freeInit.mp hi
  · intro p hp
    cases hp
  · intro i hi
    cases hi

/-- The touch pattern shared by Get on a live hit, Add on an expired
hit, and Set on a hit: overwrite the node in place keeping its key,
and move it to the front. -/
theorem WF_touch (s : Storage) (i : Nat) (e' : Elem) (hWF : s.WF)
    (hi : i ∈ s.lruList) (hkey : e'.key = (s.elemAt i).key) :
    Storage.WF { s with heap := hset s.heap i e', lruList := moveToFront s.lruList i } := by
  obtain ⟨h1, h2, h3, h4, h5, h6, h7, h8, h9⟩ := hWF
  have hb : i < s.heap.length := h4 _ hi
  have hnotin : i ∉ lerase s.lruList i := not_mem_lerase_self h1
  refine ⟨?_, h2, ?_, ?_, ?_, h6, ?_, ?_, ?_⟩
  · exact List.nodup_cons.mpr ⟨hnotin, nodup_lerase _ h1⟩
  · intro j hj
    rcases List.mem_cons.mp hj with rfl | hj'
    · exact h3 _ hi
    · exact h3 _ (mem_of_mem_lerase hj')
  · intro j hj
    rw [show (hset s.heap i e').length = s.heap.length from length_hset _ _ _]
    rcases List.mem_cons.mp hj with rfl | hj'
    · exact hb
    · exact h4 _ (mem_of_mem_lerase hj')
  · intro j hj
    rw [show (hset s.heap i e').length = s.heap.length from length_hset _ _ _]
    exact h5 _ hj
  · intro p hp
    obtain ⟨hpl, hpk⟩ := h7 p hp
    by_cases hpe : p.2 = i
    · subst hpe
      refine ⟨List.mem_cons_self _ _, ?_⟩
      show (hget (hset s.heap p.2 e') p.2).key = p.1
      rw [hget_hset_self _ hb, hkey]
      exact hpk
    · refine ⟨List.mem_cons_of_mem _ (mem_lerase_of_mem_of_ne hpl hpe), ?_⟩
      show (hget (hset s.heap i e') p.2).key = p.1
      rw [hget_hset_ne _ hpe]
      exact hpk
  · intro j hj
    show mlookup s.cache ((hget (hset s.heap i e') j).key) = some j
    rcases List.mem_cons.mp hj with rfl | hj'
    · rw [hget_hset_self _ hb, hkey]
      exact h8 _ hi
    · have hne : j ≠ i := fun he => hnotin (he ▸ hj')
      rw [hget_hset_ne _ hne]
      exact h8 _ (mem_of_mem_lerase hj')
  · show s.cache.length = (i :: lerase s.lruList i).length
    rw [List.length_cons, length_lerase_of_mem hi]
    exact h9

/-- Core of the removal invariant: the state after deleting the cache
entry, clearing the node, unlinking it, with either disposal of the
node. -/
theorem WF_remove_aux (s : Storage) (i : Nat) (hWF : s.WF) (hmem : i ∈ s.lruList)
    (fl : List Nat) (hfl : fl = s.freeList ∨ fl = i :: s.freeList) :
    Storage.WF { s with
      cache := mdelete s.cache ((s.elemAt i).key),
      heap := hset s.heap i { s.elemAt i with key := "", value := none },
      lruList := lerase s.lruList i,
      freeList := fl } := by
  obtain ⟨h1, h2, h3, h4, h5, h6, h7, h8, h9⟩ := hWF
  have hb : i < s.heap.length := h4 _ hmem
  have hnf : i ∉ s.freeList := h3 _ hmem
  have holdk : mlookup s.cache ((s.elemAt i).key) = some i := h8 _ hmem
  have hnotin : i ∉ lerase s.lruList i := not_mem_lerase_self h1
  have hfl_sub : ∀ j ∈ fl, j = i ∨ j ∈ s.freeList := by
    intro j hj
    rcases hfl with rfl | rfl
    · exact Or.inr hj
    · rcases List.mem_cons.mp hj with rfl | hj'
      · exact Or.inl rfl
      · exact Or.inr hj'
  refine ⟨nodup_lerase _ h1, ?_, ?_, ?_, ?_, mkeys_nodup_mdelete h6, ?_, ?_, ?_⟩
  · rcases hfl with rfl | rfl
    · exact h2
    · exact List.nodup_cons.mpr ⟨hnf, h2⟩
  · intro j hj
    have hjl : j ∈ s.lruList := mem_of_mem_lerase hj
    have hji : j ≠ i := fun he => hnotin (he ▸ hj)
    intro hjf
    rcases hfl_sub j hjf with rfl | hjf'
    · exact hji rfl
    · exact h3 _ hjl hjf'
  · intro j hj
    rw [show (hset s.heap i { s.elemAt i with key := "", value := none }).length =
      s.heap.length from length_hset _ _ _]
    exact h4 _ (mem_of_mem_lerase hj)
  · intro j hj
    rw [show (hset s.heap i { s.elemAt i with key := "", value := none }).length =
      s.heap.length from length_hset _ _ _]
    rcases hfl_sub j hj with rfl | hjf'
    · exact hb
    · exact h5 _ hjf'
  · intro p hp
    obtain ⟨hpc, hpk⟩ := mem_mdelete.mp hp
    obtain ⟨hpl, hpke⟩ := h7 p hpc
    have hpi : p.2 ≠ i := by
      intro he
      exact hpk (by rw [← hpke, he])
    refine ⟨mem_lerase_of_mem_of_ne hpl hpi, ?_⟩
    show (hget (hset s.heap i _) p.2).key = p.1
    rw [hget_hset_ne _ hpi]
    exact hpke
  · intro j hj
    have hjl : j ∈ s.lruList := mem_of_mem_lerase hj
    have hji : j ≠ i := fun he => hnotin (he ▸ hj)
    show mlookup (mdelete s.cache ((s.elemAt i).key)) ((hget (hset s.heap i _) j).key) =
      some j
    rw [hget_hset_ne _ hji]
    show mlookup (mdelete s.cache ((s.elemAt i).key)) ((s.elemAt j).key) = some j
    have hkne : (s.elemAt j).key ≠ (s.elemAt i).key := by
      intro he
      have := h8 _ hjl
      rw [he, holdk] at this
      cases this
      exact hji rfl
    rw [mlookup_mdelete_ne hkne]
    exact h8 _ hjl
  · show (mdelete s.cache ((s.elemAt i).key)).length = (lerase s.lruList i).length
    have e1 := length_mdelete_of_some h6 holdk
    have e2 := length_lerase_of_mem hmem
    omega

/-- Removal through Storage.remove preserves well-formedness. -/
theorem WF_remove (s : Storage) (i : Nat) (hWF : s.WF) (hmem : i ∈ s.lruList) :
    (s.remove i).WF := by
  simp only [Storage.remove]
  split
  · exact WF_remove_aux s i hWF hmem s.freeList (Or.inl rfl)
  · exact WF_remove_aux s i hWF hmem (i :: s.freeList) (Or.inr rfl)

/-- Dropping a front segment of the free list preserves
well-formedness. -/
theorem WF_dropFree (s : Storage) (n : Nat) (hWF : s.WF) :
    Storage.WF { s with freeList := s.freeList.drop n } := by
  obtain ⟨h1, h2, h3, h4, h5, h6, h7, h8, h9⟩ := hWF
  have hsub : ∀ j ∈ s.freeList.drop n, j ∈ s.freeList :=
    fun j hj => (List.drop_sublist n s.freeList).subset hj
  refine ⟨h1, (List.drop_sublist n s.freeList).nodup h2, ?_, h4, ?_, h6, h7, h8, h9⟩
  · intro j hj hjf
    exact h3 _ hj (hsub _ hjf)
  · intro j hj
    exact h5 _ (hsub _ hj)

/-- SetCapacity preserves well-formedness. -/
theorem WF_setCapacity (s : Storage) (c : Int) (hWF : s.WF) : (s.setCapacity c).WF := by
  unfold Storage.setCapacity
  split
  · obtain ⟨h1, h2, h3, h4, h5, h6, h7, h8, h9⟩ := hWF
    exact ⟨h1, h2, h3, h4, h5, h6, h7, h8, h9⟩
  · exact hWF

/-- Admission of an absent key preserves well-formedness. -/
theorem WF_add (w : Nat) (s : Storage) (k : String) (v : Val) (t : Int) (hWF : s.WF)
    (habs : mlookup s.cache k = none) : ((s.add w k v t).1).WF := by
  obtain ⟨h1, h2, h3, h4, h5, h6, h7, h8, h9⟩ := hWF
  have hNR : ((s.addNoReuse w k v t).1).WF := by
    cases hfree : s.freeList with
    | cons f rest =>
      have ha : (s.addNoReuse w k v t).1 =
          { s with
              freeList := rest,
              heap := hset s.heap f ⟨k, v, t + s.maxAge⟩,
              lruList := f :: s.lruList,
              cache := minsert s.cache k f } := by
        simp only [Storage.addNoReuse, hfree]
      rw [ha]
      have hfmem : f ∈ s.freeList := by
        rw [hfree]
        exact List.mem_cons_self _ _
      have hfb : f < s.heap.length := h5 _ hfmem
      have hfnl : f ∉ s.lruList := fun hf => h3 _ hf hfmem
      have hfrest : f ∉ rest := by
        have := h2
        rw [hfree] at this
        exact (List.nodup_cons.mp this).1
      have hrest_sub : ∀ j ∈ rest, j ∈ s.freeList := by
        intro j hj
        rw [hfree]
        exact List.mem_cons_of_mem _ hj
      refine ⟨?_, ?_, ?_, ?_, ?_, mkeys_nodup_minsert _ h6, ?_, ?_, ?_⟩
      · exact List.nodup_cons.mpr ⟨hfnl, h1⟩
      · have := h2
        rw [hfree] at this
        exact (List.nodup_cons.mp this).2
      · intro j hj
        rcases List.mem_cons.mp hj with rfl | hj'
        · exact hfrest
        · exact fun hjr => h3 _ hj' (hrest_sub _ hjr)
      · intro j hj
        rw [show (hset s.heap f ⟨k, v, t + s.maxAge⟩).length = s.heap.length from
          length_hset _ _ _]
        rcases List.mem_cons.mp hj with rfl | hj'
        · exact hfb
        · exact h4 _ hj'
      · intro j hj
        rw [show (hset s.heap f ⟨k, v, t + s.maxAge⟩).length = s.heap.length from
          length_hset _ _ _]
        exact h5 _ (hrest_sub _ hj)
      · intro p hp
        rcases mem_minsert.mp hp with rfl | ⟨hpc, hpk⟩
        · refine ⟨List.mem_cons_self _ _, ?_⟩
          show (hget (hset s.heap f ⟨k, v, t + s.maxAge⟩) f).key = k
          rw [hget_hset_self _ hfb]
        · obtain ⟨hpl, hpke⟩ := h7 p hpc
          have hpf : p.2 ≠ f := fun he => hfnl (he ▸ hpl)
          refine ⟨List.mem_cons_of_mem _ hpl, ?_⟩
          show (hget (hset s.heap f ⟨k, v, t + s.maxAge⟩) p.2).key = p.1
          rw [hget_hset_ne _ hpf]
          exact hpke
      · intro j hj
        rcases List.mem_cons.mp hj with rfl | hj'
        · show mlookup (minsert s.cache k j) ((hget (hset s.heap j _) j).key) = some j
          rw [hget_hset_self _ hfb]
          exact mlookup_minsert_self _ _ _
        · have hjf : j ≠ f := fun he => hfnl (he ▸ hj')
          show mlookup (minsert s.cache k f) ((hget (hset s.heap f _) j).key) = some j
          rw [hget_hset_ne _ hjf]
          show mlookup (minsert s.cache k f) ((s.elemAt j).key) = some j
          have hkne : (s.elemAt j).key ≠ k := by
            intro he
            have := h8 _ hj'
            rw [he, habs] at this
            cases this
          rw [mlookup_minsert_ne _ hkne]
          exact h8 _ hj'
      · show (minsert s.cache k f).length = (f :: s.lruList).length
        rw [length_minsert_of_none _ habs, List.length_cons, h9]
    | nil =>
      by_cases hg : shlOverflowGuard w s.lruList.length
      · have ha : (s.addNoReuse w k v t).1 = s := by
          simp only [Storage.addNoReuse, hfree, if_pos hg]
        rw [ha]
        exact ⟨h1, h2, h3, h4, h5, h6, h7, h8, h9⟩
      · have ha : (s.addNoReuse w k v t).1 =
            { s with
                heap := s.heap ++ [⟨k, v, t + s.maxAge⟩],
                lruList := s.heap.length :: s.lruList,
                cache := minsert s.cache k s.heap.length } := by
          simp only [Storage.addNoReuse, hfree, if_neg hg]
        rw [ha]
        have hnl : s.heap.length ∉ s.lruList :=
          fun hm => absurd (h4 _ hm) (lt_irrefl _)
        have hlen : (s.heap ++ [Elem.mk k v (t + s.maxAge)]).length = s.heap.length + 1 := by
          rw [List.length_append, List.length_singleton]
        refine ⟨?_, h2, ?_, ?_, ?_, mkeys_nodup_minsert _ h6, ?_, ?_, ?_⟩
        · exact List.nodup_cons.mpr ⟨hnl, h1⟩
        · intro j hj
          rcases List.mem_cons.mp hj with rfl | hj'
          · rw [hfree]
            exact List.not_mem_nil _
          · exact h3 _ hj'
        · intro j hj
          rw [hlen]
          rcases List.mem_cons.mp hj with rfl | hj'
          · exact Nat.lt_succ_self _
          · exact Nat.lt_succ_of_lt (h4 _ hj')
        · intro j hj
          rw [hlen]
          exact Nat.lt_succ_of_lt (h5 _ hj)
        · intro p hp
          rcases mem_minsert.mp hp with rfl | ⟨hpc, hpk⟩
          · refine ⟨List.mem_cons_self _ _, ?_⟩
            show (hget (s.heap ++ [Elem.mk k v (t + s.maxAge)]) s.heap.length).key = k
            rw [hget_append_right]
          · obtain ⟨hpl, hpke⟩ := h7 p hpc
            refine ⟨List.mem_cons_of_mem _ hpl, ?_⟩
            show (hget (s.heap ++ [Elem.mk k v (t + s.maxAge)]) p.2).key = p.1
            rw [hget_append_left _ (h4 _ hpl)]
            exact hpke
        · intro j hj
          rcases List.mem_cons.mp hj with rfl | hj'
          · show mlookup (minsert s.cache k s.heap.length)
              ((hget (s.heap ++ [Elem.mk k v (t + s.maxAge)]) s.heap.length).key) =
              some s.heap.length
            rw [hget_append_right]
            exact mlookup_minsert_self _ _ _
          · show mlookup (minsert s.cache k s.heap.length)
              ((hget (s.heap ++ [Elem.mk k v (t + s.maxAge)]) j).key) = some j
            rw [hget_append_left _ (h4 _ hj')]
            show mlookup (minsert s.cache k s.heap.length) ((s.elemAt j).key) = some j
            have hkne : (s.elemAt j).key ≠ k := by
              intro he
              have := h8 _ hj'
              rw [he, habs] at this
              cases this
            rw [mlookup_minsert_ne _ hkne]
            exact h8 _ hj'
        · show (minsert s.cache k s.heap.length).length = (s.heap.length :: s.lruList).length
          rw [length_minsert_of_none _ habs, List.length_cons, h9]
  cases hback : lback s.lruList with
  | none =>
    have ha : (s.add w k v t).1 = (s.addNoReuse w k v t).1 := by
      simp only [Storage.add, hback]
    rw [ha]
    exact hNR
  | some i =>
    by_cases hexp : t > (s.elemAt i).expiration
    · have ha : (s.add w k v t).1 =
          { s with
              cache := minsert (mdelete s.cache (s.elemAt i).key) k i,
              heap := hset s.heap i ⟨k, v, t + s.maxAge⟩,
              lruList := moveToFront s.lruList i } := by
        simp only [Storage.add, hback, if_pos hexp]
      rw [ha]
      have hmem : i ∈ s.lruList := mem_of_lback hback
      have hb : i < s.heap.length := h4 _ hmem
      have holdk : mlookup s.cache ((s.elemAt i).key) = some i := h8 _ hmem
      have hnotin : i ∉ lerase s.lruList i := not_mem_lerase_self h1
      refine ⟨?_, h2, ?_, ?_, ?_, mkeys_nodup_minsert _ (mkeys_nodup_mdelete h6),
        ?_, ?_, ?_⟩
      · exact List.nodup_cons.mpr ⟨hnotin, nodup_lerase _ h1⟩
      · intro j hj
        rcases List.mem_cons.mp hj with rfl | hj'
        · exact h3 _ hmem
        · exact h3 _ (mem_of_mem_lerase hj')
      · intro j hj
        rw [show (hset s.heap i ⟨k, v, t + s.maxAge⟩).length = s.heap.length from
          length_hset _ _ _]
        rcases List.mem_cons.mp hj with rfl | hj'
        · exact hb
        · exact h4 _ (mem_of_mem_lerase hj')
      · intro j hj
        rw [show (hset s.heap i ⟨k, v, t + s.maxAge⟩).length = s.heap.length from
          length_hset _ _ _]
        exact h5 _ hj
      · intro p hp
        rcases mem_minsert.mp hp with rfl | ⟨hpc, hpk⟩
        · refine ⟨List.mem_cons_self _ _, ?_⟩
          show (hget (hset s.heap i ⟨k, v, t + s.maxAge⟩) i).key = k
          rw [hget_hset_self _ hb]
        · obtain ⟨hpc', hpko⟩ := mem_mdelete.mp hpc
          obtain ⟨hpl, hpke⟩ := h7 p hpc'
          have hpi : p.2 ≠ i := by
            intro he
            exact hpko (by rw [← hpke, he])
          refine ⟨List.mem_cons_of_mem _ (mem_lerase_of_mem_of_ne hpl hpi), ?_⟩
          show (hget (hset s.heap i ⟨k, v, t + s.maxAge⟩) p.2).key = p.1
          rw [hget_hset_ne _ hpi]
          exact hpke
      · intro j hj
        rcases List.mem_cons.mp hj with rfl | hj'
        · show mlookup (minsert (mdelete s.cache (s.elemAt j).key) k j)
            ((hget (hset s.heap j ⟨k, v, t + s.maxAge⟩) j).key) = some j
          rw [hget_hset_self _ hb]
          exact mlookup_minsert_self _ _ _
        · have hji : j ≠ i := fun he => hnotin (he ▸ hj')
          have hjl : j ∈ s.lruList := mem_of_mem_lerase hj'
          show mlookup (minsert (mdelete s.cache (s.elemAt i).key) k i)
            ((hget (hset s.heap i ⟨k, v, t + s.maxAge⟩) j).key) = some j
          rw [hget_hset_ne _ hji]
          show mlookup (minsert (mdelete s.cache (s.elemAt i).key) k i)
            ((s.elemAt j).key) = some j
          have hkne : (s.elemAt j).key ≠ k := by
            intro he
            have := h8 _ hjl
            rw [he, habs] at this
            cases this
          have hkno : (s.elemAt j).key ≠ (s.elemAt i).key := by
            intro he
            have := h8 _ hjl
            rw [he, holdk] at this
            cases this
            exact hji rfl
          rw [mlookup_minsert_ne _ hkne, mlookup_mdelete_ne hkno]
          exact h8 _ hjl
      · show (minsert (mdelete s.cache (s.elemAt i).key) k i).length =
          (i :: lerase s.lruList i).length
        have hnone : mlookup (mdelete s.cache ((s.elemAt i).key)) k = none := by
          have hkne : k ≠ (s.elemAt i).key := by
            intro he
            rw [← he] at holdk
            rw [habs] at holdk
            cases holdk
          rw [mlookup_mdelete_ne hkne]
          exact habs
        rw [length_minsert_of_none _ hnone, List.length_cons]
        have e1 := length_mdelete_of_some h6 holdk
        have e2 := length_lerase_of_mem hmem
        omega
    · have ha : (s.add w k v t).1 = (s.addNoReuse w k v t).1 := by
        simp only [Storage.add, hback, if_neg hexp]
      rw [ha]
      exact hNR

/-- The gc preserves well-formedness. -/
theorem WF_gc (s : Storage) (t : Int) (hWF : s.WF) : (s.gc t).WF := by
  obtain ⟨h1, h2, h3, h4, h5, h6, h7, h8, h9⟩ := hWF
  set removed := (s.lruList.reverse).takeWhile (expiredB s.heap t) with hrm
  set kept := (s.lruList.reverse).dropWhile (expiredB s.heap t) with hkp
  have hsplit : removed ++ kept = s.lruList.reverse := by
    rw [hrm, hkp]
    exact List.takeWhile_append_dropWhile _ _
  have hrevnd : (removed ++ kept).Nodup := by
    rw [hsplit]
    exact List.nodup_reverse.mpr h1
  obtain ⟨hrmnd, hkpnd, hdisj⟩ := List.nodup_append.mp hrevnd
  have hrml : ∀ j ∈ removed, j ∈ s.lruList := by
    intro j hj
    have : j ∈ removed ++ kept := List.mem_append.mpr (Or.inl hj)
    rw [hsplit] at this
    exact List.mem_reverse.mp this
  have hkpl : ∀ j ∈ kept, j ∈ s.lruList := by
    intro j hj
    have : j ∈ removed ++ kept := List.mem_append.mpr (Or.inr hj)
    rw [hsplit] at this
    exact List.mem_reverse.mp this
  have hlrusplit : ∀ j ∈ s.lruList, j ∈ removed ∨ j ∈ kept := by
    intro j hj
    have : j ∈ removed ++ kept := by
      rw [hsplit]
      exact List.mem_reverse.mpr hj
    exact List.mem_append.mp this
  have hKsnd : (removed.map (fun i => (s.elemAt i).key)).Nodup := by
    refine List.Nodup.map_on ?_ hrmnd
    intro x hx y hy he
    have hxl := h8 _ (hrml _ hx)
    have hyl := h8 _ (hrml _ hy)
    rw [he, hyl] at hxl
    cases hxl
    rfl
  have hKsin : ∀ kk ∈ removed.map (fun i => (s.elemAt i).key),
      ∃ j, mlookup s.cache kk = some j := by
    intro kk hkk
    rcases List.mem_map.mp hkk with ⟨j, hj, rfl⟩
    exact ⟨j, h8 _ (hrml _ hj)⟩
  have hnotKs : ∀ j ∈ kept, (s.elemAt j).key ∉ removed.map (fun i => (s.elemAt i).key) := by
    intro j hj hk
    rcases List.mem_map.mp hk with ⟨j', hj', hje⟩
    have hjl := h8 _ (hkpl _ hj)
    have hjl' := h8 _ (hrml _ hj')
    rw [hje, hjl] at hjl'
    cases hjl'
    exact hdisj hj' hj
  have hcore : Storage.WF
      { s with
          heap := clearAll s.heap removed,
          cache := mdeletes s.cache (removed.map (fun i => (s.elemAt i).key)),
          freeList := removed.reverse ++ s.freeList,
          lruList := kept.reverse } := by
    refine ⟨List.nodup_reverse.mpr hkpnd, ?_, ?_, ?_, ?_,
      mkeys_nodup_mdeletes h6, ?_, ?_, ?_⟩
    · rw [List.nodup_append]
      refine ⟨List.nodup_reverse.mpr hrmnd, h2, ?_⟩
      intro j hj
      exact h3 _ (hrml _ (List.mem_reverse.mp hj))
    · intro j hj
      have hjk : j ∈ kept := List.mem_reverse.mp hj
      intro hjf
      rcases List.mem_append.mp hjf with hj1 | hj2
      · exact hdisj (List.mem_reverse.mp hj1) hjk
      · exact h3 _ (hkpl _ hjk) hj2
    · intro j hj
      rw [length_clearAll]
      exact h4 _ (hkpl _ (List.mem_reverse.mp hj))
    · intro j hj
      rw [length_clearAll]
      rcases List.mem_append.mp hj with hj1 | hj2
      · exact h4 _ (hrml _ (List.mem_reverse.mp hj1))
      · exact h5 _ hj2
    · intro p hp
      obtain ⟨hpc, hpk⟩ := mem_mdeletes.mp hp
      obtain ⟨hpl, hpke⟩ := h7 p hpc
      have hprm : p.2 ∉ removed := by
        intro hin
        exact hpk (by rw [← hpke]; exact List.mem_map_of_mem _ hin)
      have hpkp : p.2 ∈ kept := by
        rcases hlrusplit _ hpl with h | h
        · exact absurd h hprm
        · exact h
      refine ⟨List.mem_reverse.mpr hpkp, ?_⟩
      show (hget (clearAll s.heap removed) p.2).key = p.1
      rw [hget_clearAll_not_mem hprm]
      exact hpke
    · intro j hj
      have hjk : j ∈ kept := List.mem_reverse.mp hj
      have hjrm : j ∉ removed := fun hin => hdisj hin hjk
      show mlookup (mdeletes s.cache (removed.map (fun i => (s.elemAt i).key)))
        ((hget (clearAll s.heap removed) j).key) = some j
      rw [hget_clearAll_not_mem hjrm]
      show mlookup (mdeletes s.cache (removed.map (fun i => (s.elemAt i).key)))
        ((s.elemAt j).key) = some j
      rw [mlookup_mdeletes_not_mem (hnotKs _ hjk)]
      exact h8 _ (hkpl _ hjk)
    · show (mdeletes s.cache (removed.map (fun i => (s.elemAt i).key))).length =
        kept.reverse.length
      have e1 := length_mdeletes h6 hKsnd hKsin
      have e2 : (removed.map (fun i => (s.elemAt i).key)).length = removed.length :=
        List.length_map _ _
      have e3 : removed.length + kept.length = s.lruList.length := by
        have := congrArg List.length hsplit
        simpa using this
      rw [List.length_reverse]
      omega
  rw [gc_eq s t h1, ← hrm, ← hkp]
  beta_reduce
  split
  · exact WF_dropFree _ _ hcore
  · exact hcore

theorem WF_Add (w : Nat) (s : Storage) (k : String) (v : Val) (t : Int) (hWF : s.WF) :
    ((s.Add w k v t).1).WF := by
  cases h : mlookup s.cache k with
  | none =>
    have ha : (s.Add w k v t).1 = (s.add w k v t).1 := by
      simp only [Storage.Add, h]
    rw [ha]
    exact WF_add w s k v t hWF h
  | some i =>
    by_cases hexp : t > (s.elemAt i).expiration
    · have ha : (s.Add w k v t).1 =
          { s with
              heap := hset s.heap i
                { s.elemAt i with value := v, expiration := t + s.maxAge },
              lruList := moveToFront s.lruList i } := by
        simp only [Storage.Add, h, if_pos hexp]
      rw [ha]
      exact WF_touch s i _ hWF (hWF.lookup_facts h).1 rfl
    · have ha : (s.Add w k v t).1 = s := by
        simp only [Storage.Add, h, if_neg hexp]
      rw [ha]
      exact hWF

theorem WF_Set (w : Nat) (s : Storage) (k : String) (v : Val) (t : Int) (hWF : s.WF) :
    ((s.Set w k v t).1).WF := by
  cases h : mlookup s.cache k with
  | none =>
    have ha : (s.Set w k v t).1 = (s.add w k v t).1 := by
      simp only [Storage.Set, h]
    rw [ha]
    exact WF_add w s k v t hWF h
  | some i =>
    have ha : (s.Set w k v t).1 =
        { s with
            heap := hset s.heap i
              { s.elemAt i with value := v, expiration := t + s.maxAge },
            lruList := moveToFront s.lruList i } := by
      simp only [Storage.Set, h]
    rw [ha]
    exact WF_touch s i _ hWF (hWF.lookup_facts h).1 rfl

theorem WF_Get (s : Storage) (k : String) (t : Int) (hWF : s.WF) :
    ((s.Get k t).1).WF := by
  cases h : mlookup s.cache k with
  | none =>
    have ha : (s.Get k t).1 = s := by
      simp only [Storage.Get, h]
    rw [ha]
    exact hWF
  | some i =>
    by_cases hexp : t > (s.elemAt i).expiration
    · have ha : (s.Get k t).1 = s.remove i := by
        simp only [Storage.Get, h, if_pos hexp]
      rw [ha]
      exact WF_remove s i hWF (hWF.lookup_facts h).1
    · have ha : (s.Get k t).1 =
          { s with
              heap := hset s.heap i
                { s.elemAt i with expiration := t + s.maxAge },
              lruList := moveToFront s.lruList i } := by
        simp only [Storage.Get, h, if_neg hexp]
      rw [ha]
      exact WF_touch s i _ hWF (hWF.lookup_facts h).1 rfl

theorem WF_Delete (s : Storage) (k : String) (hWF : s.WF) : ((s.Delete k).1).WF := by
  cases h : mlookup s.cache k with
  | none =>
    have ha : (s.Delete k).1 = s := by
      simp only [Storage.Delete, h]
    rw [ha]
    exact hWF
  | some i =>
    have ha : (s.Delete k).1 = s.remove i := by
      simp only [Storage.Delete, h]
    rw [ha]
    exact WF_remove s i hWF (hWF.lookup_facts h).1

theorem WF_applyOp (w : Nat) (s : Storage) (op : Op) (t : Int) (hWF : s.WF) :
    (applyOp w s op t).WF := by
  cases op with
  | add k v => exact WF_Add w s k v t hWF
  | set k v => exact WF_Set w s k v t hWF
  | get k => exact WF_Get s k t hWF
  | delete k => exact WF_Delete s k hWF
  | gc => exact WF_gc s t hWF
  | setCapacity c => exact WF_setCapacity s c hWF

theorem WF_run (w : Nat) (s : Storage) (tr : List (Op × Int)) (hWF : s.WF) :
    (run w s tr).WF := by
  induction tr generalizing s with
  | nil => exact hWF
  | cons p tr ih =>
    obtain ⟨op, t⟩ := p
    exact ih _ (WF_applyOp w s op t hWF)

/-! ## Claim C7: the index/live-list invariant -/

/-- C7.  After every finite trace of public operations (Add, Set, Get,
Delete, gc sweeps, SetCapacity) from a fresh Storage, the Index and
the live list have the same size, every Index binding points at a node
carrying exactly that key, and no free-list node is referenced by the
Index. -/
theorem index_live_list_invariant (w : Nat) (mA : Int) (cap : Nat)
    (tr : List (Op × Int)) :
    ((run w (Storage.new mA cap) tr).cache.length =
        (run w (Storage.new mA cap) tr).lruList.length) ∧
    (∀ p ∈ (run w (Storage.new mA cap) tr).cache,
      ((run w (Storage.new mA cap) tr).elemAt p.2).key = p.1 ∧
      p.2 ∈ (run w (Storage.new mA cap) tr).lruList) ∧
    (∀ p ∈ (run w (Storage.new mA cap) tr).cache,
      p.2 ∉ (run w (Storage.new mA cap) tr).freeList) := by
  have hWF := WF_run w (Storage.new mA cap) tr (WF_new mA cap)
  obtain ⟨-, -, h3, -, -, -, h7, -, h9⟩ := hWF
  exact ⟨h9, fun p hp => ⟨(h7 p hp).2, (h7 p hp).1⟩,
    fun p hp => h3 _ (h7 p hp).1⟩

/-! ## Expiration monotonicity -/

/-- The expiration timestamps along the live list, front to back. -/
def expsOf (s : Storage) : List Int := s.lruList.map (fun i => (s.elemAt i).expiration)

/-- Front-to-back non-increasing expirations. -/
def ExpSorted (s : Storage) : Prop := List.Pairwise (fun a b => a ≥ b) (expsOf s)

/-- Every live expiration is at most t + maxAge. -/
def ExpBounded (s : Storage) (t : Int) : Prop :=
  ∀ i ∈ s.lruList, (s.elemAt i).expiration ≤ t + s.maxAge

theorem ExpBounded.mono {s : Storage} {t0 t : Int} (h : ExpBounded s t0) (ht : t0 ≤ t) :
    ExpBounded s t :=
  fun i hi => le_trans (h i hi) (add_le_add_right ht _)

/-- Pushing a node with the maximal expiration onto the front keeps the
expiration sequence sorted. -/
theorem pairwise_exps_push (heap heap' : List Elem) (lru : List Nat) (f : Nat) (T : Int)
    (hpres : ∀ j ∈ lru, hget heap' j = hget heap j)
    (hf : (hget heap' f).expiration = T)
    (hs : List.Pairwise (fun a b => a ≥ b) (lru.map (fun j => (hget heap j).expiration)))
    (hb : ∀ j ∈ lru, (hget heap j).expiration ≤ T) :
    List.Pairwise (fun a b => a ≥ b)
      ((f :: lru).map (fun j => (hget heap' j).expiration)) ∧
    (∀ j ∈ f :: lru, (hget heap' j).expiration ≤ T) := by
  have hmap : lru.map (fun j => (hget heap' j).expiration) =
      lru.map (fun j => (hget heap j).expiration) := by
    apply List.map_congr_left
    intro j hj
    rw [hpres j hj]
  constructor
  · rw [List.map_cons, hmap]
    refine List.pairwise_cons.mpr ⟨?_, hs⟩
    intro x hx
    rcases List.mem_map.mp hx with ⟨j, hj, rfl⟩
    rw [hf]
    exact hb j hj
  · intro j hj
    rcases List.mem_cons.mp hj with rfl | hj'
    · rw [hf]
    · rw [hpres j hj']
      exact hb j hj'

/-- Restricting to a sublist with unchanged expirations keeps the
sequence sorted and bounded. -/
theorem pairwise_exps_sub (heap heap' : List Elem) (lru lru' : List Nat) (T : Int)
    (hsub : List.Sublist lru' lru)
    (hpres : ∀ j ∈ lru', (hget heap' j).expiration = (hget heap j).expiration)
    (hs : List.Pairwise (fun a b => a ≥ b) (lru.map (fun j => (hget heap j).expiration)))
    (hb : ∀ j ∈ lru, (hget heap j).expiration ≤ T) :
    List.Pairwise (fun a b => a ≥ b)
      (lru'.map (fun j => (hget heap' j).expiration)) ∧
    (∀ j ∈ lru', (hget heap' j).expiration ≤ T) := by
  have hmap : lru'.map (fun j => (hget heap' j).expiration) =
      lru'.map (fun j => (hget heap j).expiration) :=
    List.map_congr_left hpres
  constructor
  · rw [hmap]
    exact List.Pairwise.sublist (hsub.map _) hs
  · intro j hj
    rw [hpres j hj]
    exact hb j (hsub.subset hj)

/-- The expiration invariant after one public operation run at a time
no earlier than the bound. -/
theorem expInv_applyOp (w : Nat) (s : Storage) (op : Op) (t : Int) (hWF : s.WF)
    (hs : ExpSorted s) (hb : ExpBounded s t) :
    ExpSorted (applyOp w s op t) ∧ ExpBounded (applyOp w s op t) t := by
  have hnd := hWF.1
  have htouch : ∀ (i : Nat) (e' : Elem), i ∈ s.lruList →
      e'.expiration = t + s.maxAge →
      ExpSorted { s with heap := hset s.heap i e', lruList := moveToFront s.lruList i } ∧
      ExpBounded { s with heap := hset s.heap i e', lruList := moveToFront s.lruList i } t := by
    intro i e' hi hexp'
    have hbound : i < s.heap.length := hWF.2.2.2.1 _ hi
    have hnotin : i ∉ lerase s.lruList i := not_mem_lerase_self hnd
    have hpres : ∀ j ∈ lerase s.lruList i, hget (hset s.heap i e') j = hget s.heap j := by
      intro j hj
      exact hget_hset_ne _ (fun he => by cases he; exact hnotin hj)
    have hsub := pairwise_exps_sub s.heap s.heap s.lruList (lerase s.lruList i)
      (t + s.maxAge) (lerase_sublist _ _) (fun j _ => rfl) hs hb
    have hpush := pairwise_exps_push s.heap (hset s.heap i e') (lerase s.lruList i) i
      (t + s.maxAge) hpres (by rw [hget_hset_self _ hbound, hexp'])
      hsub.1 (fun j hj => le_of_eq_of_le rfl (hsub.2 j hj))
    exact ⟨hpush.1, hpush.2⟩
  have hremove : ∀ i : Nat, i ∈ s.lruList →
      ExpSorted (s.remove i) ∧ ExpBounded (s.remove i) t := by
    intro i hi
    have hnotin : i ∉ lerase s.lruList i := not_mem_lerase_self hnd
    have hpres : ∀ j ∈ lerase s.lruList i,
        (hget (hset s.heap i { s.elemAt i with key := "", value := none }) j).expiration =
          (hget s.heap j).expiration := by
      intro j hj
      rw [hget_hset_ne _ (fun he => by cases he; exact hnotin hj)]
    have hsub := pairwise_exps_sub s.heap
      (hset s.heap i { s.elemAt i with key := "", value := none })
      s.lruList (lerase s.lruList i) (t + s.maxAge) (lerase_sublist _ _) hpres hs hb
    constructor
    · show List.Pairwise _ ((s.remove i).lruList.map
        (fun j => (hget (s.remove i).heap j).expiration))
      rw [remove_lruList, remove_heap]
      exact hsub.1
    · intro j hj
      rw [remove_lruList] at hj
      show (hget (s.remove i).heap j).expiration ≤ t + (s.remove i).maxAge
      rw [remove_heap, remove_maxAge]
      exact hsub.2 j hj
  have hadd : ∀ (k : String) (v : Val), mlookup s.cache k = none →
      ExpSorted (s.add w k v t).1 ∧ ExpBounded (s.add w k v t).1 t := by
    intro k v habs
    have hNR : ExpSorted (s.addNoReuse w k v t).1 ∧
        ExpBounded (s.addNoReuse w k v t).1 t := by
      cases hfree : s.freeList with
      | cons f rest =>
        have ha : (s.addNoReuse w k v t).1 =
            { s with
                freeList := rest,
                heap := hset s.heap f (Elem.mk k v (t + s.maxAge)),
                lruList := f :: s.lruList,
                cache := minsert s.cache k f } := by
          simp only [Storage.addNoReuse, hfree]
        rw [ha]
        have hfmem : f ∈ s.freeList := by
          rw [hfree]
          exact List.mem_cons_self _ _
        have hfb : f < s.heap.length := hWF.2.2.2.2.1 _ hfmem
        have hfnl : f ∉ s.lruList := fun hf => hWF.2.2.1 _ hf hfmem
        have hpush := pairwise_exps_push s.heap (hset s.heap f (Elem.mk k v (t + s.maxAge)))
          s.lruList f (t + s.maxAge)
          (fun j hj => hget_hset_ne _ (fun he => hfnl (he ▸ hj)))
          (by rw [hget_hset_self _ hfb]) hs hb
        exact ⟨hpush.1, hpush.2⟩
      | nil =>
        by_cases hg : shlOverflowGuard w s.lruList.length
        · have ha : (s.addNoReuse w k v t).1 = s := by
            simp only [Storage.addNoReuse, hfree, if_pos hg]
          rw [ha]
          exact ⟨hs, hb⟩
        · have ha : (s.addNoReuse w k v t).1 =
              { s with
                  heap := s.heap ++ [Elem.mk k v (t + s.maxAge)],
                  lruList := s.heap.length :: s.lruList,
                  cache := minsert s.cache k s.heap.length } := by
            simp only [Storage.addNoReuse, hfree, if_neg hg]
          rw [ha]
          have hpush := pairwise_exps_push s.heap (s.heap ++ [Elem.mk k v (t + s.maxAge)])
            s.lruList s.heap.length (t + s.maxAge)
            (fun j hj => hget_append_left _ (hWF.2.2.2.1 _ hj))
            (by rw [hget_append_right]) hs hb
          exact ⟨hpush.1, hpush.2⟩
    cases hback : lback s.lruList with
    | none =>
      have ha : (s.add w k v t).1 = (s.addNoReuse w k v t).1 := by
        simp only [Storage.add, hback]
      rw [ha]
      exact hNR
    | some i =>
      by_cases hexp : t > (s.elemAt i).expiration
      · have ha : (s.add w k v t).1 =
            { s with
                cache := minsert (mdelete s.cache (s.elemAt i).key) k i,
                heap := hset s.heap i (Elem.mk k v (t + s.maxAge)),
                lruList := moveToFront s.lruList i } := by
          simp only [Storage.add, hback, if_pos hexp]
        rw [ha]
        have ht := htouch i (Elem.mk k v (t + s.maxAge)) (mem_of_lback hback) rfl
        exact ⟨ht.1, ht.2⟩
      · have ha : (s.add w k v t).1 = (s.addNoReuse w k v t).1 := by
          simp only [Storage.add, hback, if_neg hexp]
        rw [ha]
        exact hNR
  cases op with
  | add k v =>
    show ExpSorted (s.Add w k v t).1 ∧ ExpBounded (s.Add w k v t).1 t
    cases h : mlookup s.cache k with
    | none =>
      have ha : (s.Add w k v t).1 = (s.add w k v t).1 := by
        simp only [Storage.Add, h]
      rw [ha]
      exact hadd k v h
    | some i =>
      by_cases hexp : t > (s.elemAt i).expiration
      · have ha : (s.Add w k v t).1 =
            { s with
                heap := hset s.heap i
                  { s.elemAt i with value := v, expiration := t + s.maxAge },
                lruList := moveToFront s.lruList i } := by
          simp only [Storage.Add, h, if_pos hexp]
        rw [ha]
        exact htouch i _ (hWF.lookup_facts h).1 rfl
      · have ha : (s.Add w k v t).1 = s := by
          simp only [Storage.Add, h, if_neg hexp]
        rw [ha]
        exact ⟨hs, hb⟩
  | set k v =>
    show ExpSorted (s.Set w k v t).1 ∧ ExpBounded (s.Set w k v t).1 t
    cases h : mlookup s.cache k with
    | none =>
      have ha : (s.Set w k v t).1 = (s.add w k v t).1 := by
        simp only [Storage.Set, h]
      rw [ha]
      exact hadd k v h
    | some i =>
      have ha : (s.Set w k v t).1 =
          { s with
              heap := hset s.heap i
                { s.elemAt i with value := v, expiration := t + s.maxAge },
              lruList := moveToFront s.lruList i } := by
        simp only [Storage.Set, h]
      rw [ha]
      exact htouch i _ (hWF.lookup_facts h).1 rfl
  | get k =>
    show ExpSorted (s.Get k t).1 ∧ ExpBounded (s.Get k t).1 t
    cases h : mlookup s.cache k with
    | none =>
      have ha : (s.Get k t).1 = s := by
        simp only [Storage.Get, h]
      rw [ha]
      exact ⟨hs, hb⟩
    | some i =>
      by_cases hexp : t > (s.elemAt i).expiration
      · have ha : (s.Get k t).1 = s.remove i := by
          simp only [Storage.Get, h, if_pos hexp]
        rw [ha]
        exact hremove i (hWF.lookup_facts h).1
      · have ha : (s.Get k t).1 =
            { s with
                heap := hset s.heap i
                  { s.elemAt i with expiration := t + s.maxAge },
                lruList := moveToFront s.lruList i } := by
          simp only [Storage.Get, h, if_neg hexp]
        rw [ha]
        exact htouch i _ (hWF.lookup_facts h).1 rfl
  | delete k =>
    show ExpSorted (s.Delete k).1 ∧ ExpBounded (s.Delete k).1 t
    cases h : mlookup s.cache k with
    | none =>
      have ha : (s.Delete k).1 = s := by
        simp only [Storage.Delete, h]
      rw [ha]
      exact ⟨hs, hb⟩
    | some i =>
      have ha : (s.Delete k).1 = s.remove i := by
        simp only [Storage.Delete, h]
      rw [ha]
      exact hremove i (hWF.lookup_facts h).1
  | gc =>
    show ExpSorted (s.gc t) ∧ ExpBounded (s.gc t) t
    set removed := (s.lruList.reverse).takeWhile (expiredB s.heap t) with hrm
    set kept := (s.lruList.reverse).dropWhile (expiredB s.heap t) with hkp
    have hsplit : removed ++ kept = s.lruList.reverse := by
      rw [hrm, hkp]
      exact List.takeWhile_append_dropWhile _ _
    have hrevnd : (removed ++ kept).Nodup := by
      rw [hsplit]
      exact List.nodup_reverse.mpr hnd
    obtain ⟨-, -, hdisj⟩ := List.nodup_append.mp hrevnd
    have hkeptsub : List.Sublist kept.reverse s.lruList := by
      have h1 : List.Sublist kept (s.lruList.reverse) := by
        rw [hkp]
        exact List.dropWhile_sublist _
      have h2 := h1.reverse
      rwa [List.reverse_reverse] at h2
    have hpres : ∀ j ∈ kept.reverse,
        (hget (clearAll s.heap removed) j).expiration = (hget s.heap j).expiration := by
      intro j hj
      rw [hget_clearAll_not_mem (fun hin => hdisj hin (List.mem_reverse.mp hj))]
    have hsub := pairwise_exps_sub s.heap (clearAll s.heap removed) s.lruList
      kept.reverse (t + s.maxAge) hkeptsub hpres hs hb
    have hlru := gc_lruList_eq s t hnd
    have hheap := gc_heap_eq s t hnd
    have hmax := gc_maxAge_eq s t hnd
    rw [← hrm] at hheap
    rw [← hkp] at hlru
    constructor
    · show List.Pairwise _ ((s.gc t).lruList.map
        (fun j => (hget (s.gc t).heap j).expiration))
      rw [hlru, hheap]
      exact hsub.1
    · intro j hj
      rw [hlru] at hj
      show (hget (s.gc t).heap j).expiration ≤ t + (s.gc t).maxAge
      rw [hheap, hmax]
      exact hsub.2 j hj
  | setCapacity c =>
    show ExpSorted (s.setCapacity c) ∧ ExpBounded (s.setCapacity c) t
    unfold Storage.setCapacity
    split
    · exact ⟨hs, hb⟩
    · exact ⟨hs, hb⟩

/-- The expiration invariant along a chronological trace. -/
theorem expInv_run (w : Nat) (s : Storage) (t0 : Int) (tr : List (Op × Int))
    (hWF : s.WF) (hs : ExpSorted s) (hb : ExpBounded s t0) (hch : Chrono t0 tr) :
    ExpSorted (run w s tr) := by
  induction tr generalizing s t0 with
  | nil => exact hs
  | cons p tr ih =>
    obtain ⟨op, t⟩ := p
    obtain ⟨ht, hch'⟩ := hch
    obtain ⟨hs', hb'⟩ := expInv_applyOp w s op t hWF hs (hb.mono ht)
    exact ih _ t (WF_applyOp w s op t hWF) hs' hb' hch'

/-- In a back-to-front scan of a list whose expirations grow
back-to-front, nothing after the expired front run is expired. -/
theorem dropWhile_expired_none {heap : List Elem} {l : List Nat} {t : Int}
    (hp : List.Pairwise
      (fun a b => (hget heap a).expiration ≤ (hget heap b).expiration) l) :
    ∀ j ∈ l.dropWhile (expiredB heap t), ¬ t > (hget heap j).expiration := by
  induction l with
  | nil =>
    intro j hj
    cases hj
  | cons x l ih =>
    rcases List.pairwise_cons.mp hp with ⟨hx, hl⟩
    by_cases hpx : t > (hget heap x).expiration
    · rw [show (x :: l).dropWhile (expiredB heap t) = l.dropWhile (expiredB heap t) from
        List.dropWhile_cons_of_pos (decide_eq_true hpx)]
      exact ih hl
    · rw [show (x :: l).dropWhile (expiredB heap t) = x :: l from
        List.dropWhile_cons_of_neg (by simpa [expiredB] using hpx)]
      intro j hj
      rcases List.mem_cons.mp hj with rfl | hj'
      · exact hpx
      · exact fun hc => hpx (lt_of_le_of_lt (hx j hj') hc)

/-- Sorted expirations give back-contiguity of the expired entries at
every instant. -/
theorem sorted_expired_contiguous (s : Storage) (hs : ExpSorted s) (t : Int) :
    ∀ j ∈ (s.lruList.reverse).dropWhile (expiredB s.heap t),
      ¬ t > (s.elemAt j).expiration := by
  have hp0 : s.lruList.Pairwise
      (fun a b => (hget s.heap a).expiration ≥ (hget s.heap b).expiration) :=
    List.pairwise_map.mp hs
  have hp : s.lruList.reverse.Pairwise
      (fun a b => (hget s.heap a).expiration ≤ (hget s.heap b).expiration) := by
    rw [List.pairwise_reverse]
    exact hp0
  exact dropWhile_expired_none hp

/-! ## Claim C8: expiration monotonicity along traces -/

/-- C8.  After any chronological trace of public operations from a
fresh Storage (timestamps non-decreasing, maxAge fixed), the live
list's expirations are non-increasing from front to back, and
consequently, at every instant, the expired entries form a contiguous
run at the back: past the expired back-run (scanning from the back),
no entry is expired. -/
theorem expiration_monotonic (w : Nat) (mA : Int) (cap : Nat) (t0 : Int)
    (tr : List (Op × Int)) (hch : Chrono t0 tr) :
    ExpSorted (run w (Storage.new mA cap) tr) ∧
    ∀ t, ∀ j ∈ (((run w (Storage.new mA cap) tr).lruList.reverse).dropWhile
        (expiredB (run w (Storage.new mA cap) tr).heap t)),
      ¬ t > ((run w (Storage.new mA cap) tr).elemAt j).expiration := by
  have hs0 : ExpSorted (Storage.new mA cap) := List.Pairwise.nil
  have hb0 : ExpBounded (Storage.new mA cap) t0 := by
    intro i hi
    cases hi
  have hs := expInv_run w (Storage.new mA cap) t0 tr (WF_new mA cap) hs0 hb0 hch
  exact ⟨hs, fun t => sorted_expired_contiguous _ hs t⟩

/-- A concrete chronological trace. -/
def tr8 : List (Op × Int) :=
  [(Op.add "a" (some 1), 10), (Op.add "b" (some 2), 11),
   (Op.get "a", 12), (Op.set "c" (some 3), 13), (Op.gc, 14)]

/-- Witness for expiration_monotonic at a concrete input. -/
theorem expiration_monotonic_witness :
    Chrono 0 tr8 ∧
    (ExpSorted (run 64 (Storage.new 100 4) tr8) ∧
    ∀ t, ∀ j ∈ (((run 64 (Storage.new 100 4) tr8).lruList.reverse).dropWhile
        (expiredB (run 64 (Storage.new 100 4) tr8).heap t)),
      ¬ t > ((run 64 (Storage.new 100 4) tr8).elemAt j).expiration) :=
  ⟨by decide, expiration_monotonic 64 100 4 0 tr8 (by decide)⟩

/-- C5 amended.  On each tick the sweep scans from the back of the live
list and stops at the first non-expired tail; every node it removes is
strictly expired, loses its Index entry, and has its key and value
cleared; the swept nodes are pushed one by one, unconditionally, onto
the front of the free list, so before any trim the free list is exactly
the swept run (last-swept node in front) on top of the old free list;
the separate bulk capacity-trim then runs exactly when
totalLen > capacity and the surviving live length is under
capacity - capacity/5, and it discards nodes from the front of that
free list: the result is the drop of totalLen - capacity nodes off its
front, which brings the total to capacity; otherwise no node is
physically discarded and the free list is exactly the pushed run on
top of the old free list. -/
theorem gc_spec (s : Storage) (t : Int) (hWF : s.WF) :
    (s.gc t).lruList = ((s.lruList.reverse).dropWhile (expiredB s.heap t)).reverse ∧
    (∀ i ∈ (s.lruList.reverse).takeWhile (expiredB s.heap t),
      t > (s.elemAt i).expiration ∧
      mlookup (s.gc t).cache ((s.elemAt i).key) = none ∧
      ((s.gc t).elemAt i).key = "" ∧
      ((s.gc t).elemAt i).value = none) ∧
    (∀ j, ((s.lruList.reverse).dropWhile (expiredB s.heap t)).head? = some j →
      ¬ t > (s.elemAt j).expiration) ∧
    (¬ (s.lruList.length + s.freeList.length > s.capacity ∧
        ((s.lruList.reverse).dropWhile (expiredB s.heap t)).length <
          s.capacity - s.capacity / 5) →
      (s.gc t).freeList =
        ((s.lruList.reverse).takeWhile (expiredB s.heap t)).reverse ++ s.freeList) ∧
    ((s.lruList.length + s.freeList.length > s.capacity ∧
        ((s.lruList.reverse).dropWhile (expiredB s.heap t)).length <
          s.capacity - s.capacity / 5) →
      (s.gc t).freeList =
        (((s.lruList.reverse).takeWhile (expiredB s.heap t)).reverse ++
          s.freeList).drop (s.lruList.length + s.freeList.length - s.capacity) ∧
      (s.gc t).lruList.length + (s.gc t).freeList.length = s.capacity) := by
  have hnd := hWF.1
  have hud : s.lruList.reverse.Nodup := List.nodup_reverse.mpr hnd
  set removed := (s.lruList.reverse).takeWhile (expiredB s.heap t) with hrm
  set kept := (s.lruList.reverse).dropWhile (expiredB s.heap t) with hkp
  have hrmnd : removed.Nodup := by
    rw [hrm]
    exact (List.takeWhile_sublist _).nodup hud
  have hs1 := gcSweepRev_eq t s s.lruList.reverse hud
  set s1 : Storage :=
    { s with
        heap := clearAll s.heap removed,
        cache := mdeletes s.cache (removed.map (fun i => (s.elemAt i).key)),
        freeList := removed.reverse ++ s.freeList,
        lruList := kept.reverse } with hs1def
  have hgc : s.gc t =
      (if discardCond s1 then
        { s1 with freeList :=
            s1.freeList.drop (s1.lruList.length + s1.freeList.length - s1.capacity) }
      else s1) := by
    simp only [Storage.gc, hs1]
  have hlen : removed.length + kept.length = s.lruList.length := by
    rw [hrm, hkp, ← List.length_append, List.takeWhile_append_dropWhile,
      List.length_reverse]
  have hcond : discardCond s1 ↔
      (s.lruList.length + s.freeList.length > s.capacity ∧
        kept.length < s.capacity - s.capacity / 5) := by
    unfold discardCond
    simp only [hs1def, List.length_reverse, List.length_append]
    constructor
    · rintro ⟨h1, h2⟩
      exact ⟨by omega, h2⟩
    · rintro ⟨h1, h2⟩
      exact ⟨by omega, h2⟩
  have hlru : (s.gc t).lruList = kept.reverse := by
    rw [hgc]
    split <;> rfl
  have hcache : (s.gc t).cache =
      mdeletes s.cache (removed.map (fun i => (s.elemAt i).key)) := by
    rw [hgc]
    split <;> rfl
  have hheap : (s.gc t).heap = clearAll s.heap removed := by
    rw [hgc]
    split <;> rfl
  refine ⟨hlru, ?_, ?_, ?_, ?_⟩
  · intro i hi
    have hirev : i ∈ s.lruList.reverse := (List.takeWhile_sublist _).subset hi
    have hilru : i ∈ s.lruList := List.mem_reverse.mp hirev
    have hib : i < s.heap.length := hWF.2.2.2.1 _ hilru
    have hclear : hget (clearAll s.heap removed) i =
        { hget s.heap i with key := "", value := none } :=
      hget_clearAll_mem hrmnd hi hib
    refine ⟨?_, ?_, ?_, ?_⟩
    · have hb := List.mem_takeWhile_imp hi
      simpa [expiredB] using hb
    · rw [hcache]
      exact mlookup_mdeletes_of_mem (List.mem_map_of_mem _ hi)
    · show (hget (s.gc t).heap i).key = ""
      rw [hheap, hclear]
    · show (hget (s.gc t).heap i).value = none
      rw [hheap, hclear]
  · intro j hj
    have h := List.head?_dropWhile_not (expiredB s.heap t) s.lruList.reverse
    rw [← hkp, hj] at h
    simpa [expiredB] using h
  · intro hC
    have hnc : ¬ discardCond s1 := fun hc => hC (hcond.mp hc)
    rw [hgc, if_neg hnc]
  · intro hC
    have hc : discardCond s1 := hcond.mpr hC
    rw [hgc, if_pos hc]
    refine ⟨?_, ?_⟩
    · show s1.freeList.drop (s1.lruList.length + s1.freeList.length - s1.capacity) =
        (removed.reverse ++ s.freeList).drop
          (s.lruList.length + s.freeList.length - s.capacity)
      simp only [hs1def]
      congr 1
      simp only [List.length_reverse, List.length_append]
      omega
    · simp only [hs1def, List.length_reverse, List.length_append, List.length_drop]
      omega

/-- Witness for gc_spec at a concrete input (sigma4 at time 300: all
three live nodes expired, trim condition holds; the free list ends as
[0,1,2,3,4,5] minus one node dropped off the front, total 5 =
capacity). -/
theorem gc_spec_witness :
    sigma4.WF ∧
    ((sigma4.gc 300).lruList =
        ((sigma4.lruList.reverse).dropWhile (expiredB sigma4.heap 300)).reverse ∧
    (∀ i ∈ (sigma4.lruList.reverse).takeWhile (expiredB sigma4.heap 300),
      (300 : Int) > (sigma4.elemAt i).expiration ∧
      mlookup (sigma4.gc 300).cache ((sigma4.elemAt i).key) = none ∧
      ((sigma4.gc 300).elemAt i).key = "" ∧
      ((sigma4.gc 300).elemAt i).value = none) ∧
    (∀ j, ((sigma4.lruList.reverse).dropWhile (expiredB sigma4.heap 300)).head? =
        some j → ¬ (300 : Int) > (sigma4.elemAt j).expiration) ∧
    (¬ (sigma4.lruList.length + sigma4.freeList.length > sigma4.capacity ∧
        ((sigma4.lruList.reverse).dropWhile (expiredB sigma4.heap 300)).length <
          sigma4.capacity - sigma4.capacity / 5) →
      (sigma4.gc 300).freeList =
        ((sigma4.lruList.reverse).takeWhile (expiredB sigma4.heap 300)).reverse ++
          sigma4.freeList) ∧
    ((sigma4.lruList.length + sigma4.freeList.length > sigma4.capacity ∧
        ((sigma4.lruList.reverse).dropWhile (expiredB sigma4.heap 300)).length <
          sigma4.capacity - sigma4.capacity / 5) →
      (sigma4.gc 300).freeList =
        (((sigma4.lruList.reverse).takeWhile (expiredB sigma4.heap 300)).reverse ++
          sigma4.freeList).drop
          (sigma4.lruList.length + sigma4.freeList.length - sigma4.capacity) ∧
      (sigma4.gc 300).lruList.length + (sigma4.gc 300).freeList.length =
        sigma4.capacity)) :=
  ⟨by decide, gc_spec sigma4 300 (by decide)⟩
